import Mathlib

/-!
# Verification of the anagram phrase searcher (src/src/main.rs)

Shallow embedding of the program's data model and operations, and proofs of
the specification's claims about them.

The program's `HashMap<char, u32>` character counters satisfy the documented
invariant that no entry has count 0 (entries are removed as soon as their
count reaches zero, main.rs:138-141, and `count_chars` only ever inserts
counts ≥ 1).  A finite char→positive-count map is exactly a finite multiset
of characters, so character counters are modelled as `Multiset Char`;
map equality is multiset equality and the entry of `c` is `Multiset.count c`.
-/

namespace Anagram

/-- `count_chars` (main.rs:110-118): iterate over the characters of the input
text (modelled as `List Char`) and bump each character's entry.  Note the
source performs no whitespace filtering of its own. -/
def count_chars (char_sequence : List Char) : Multiset Char :=
  char_sequence.foldl (fun char_hash c => c ::ₘ char_hash) 0

/-- `contains_chars` (main.rs:95-107): the guard `compare.len() > required.len()`
compares numbers of distinct characters (map sizes); the loop then requires
every distinct character of `compare` to be present in `required` with a count
at least as large (a missing entry, `required_count.is_none()`, fails). -/
def contains_chars (required compare : Multiset Char) : Bool :=
  decide (compare.toFinset.card ≤ required.toFinset.card) &&
    decide (∀ c ∈ compare.toFinset, compare.count c ≤ required.count c)

/-- `add_chars` (main.rs:121-125): per-character addition of counts, inserting
missing characters; on multisets this is `+`. -/
def add_chars (source add : Multiset Char) : Multiset Char :=
  source + add

/-- `subtract_chars` (main.rs:130-145): if the `contains_chars` pre-check
fails, the map is unchanged and the result is `false` (all-or-nothing);
otherwise every count of `subtract` is removed from `source`, entries that
reach zero are deleted, and the result is `true`.  Under the pre-check this
per-character decrement-and-drop-zeros loop is exactly multiset difference. -/
def subtract_chars (source subtract : Multiset Char) : Multiset Char × Bool :=
  if contains_chars source subtract then (source - subtract, true) else (source, false)

theorem count_chars_foldl (init : Multiset Char) (s : List Char) :
    s.foldl (fun char_hash c => c ::ₘ char_hash) init = init + ↑s := by
  induction s generalizing init with
  | nil => simp
  | cons a t ih =>
    simp only [List.foldl_cons, ih]
    rw [← Multiset.cons_coe, Multiset.cons_add, Multiset.add_cons]

theorem count_chars_eq_coe (s : List Char) : count_chars s = ↑s := by
  unfold count_chars
  rw [count_chars_foldl, zero_add]

theorem contains_chars_iff_le (required compare : Multiset Char) :
    contains_chars required compare = true ↔ compare ≤ required := by
  unfold contains_chars
  simp only [Bool.and_eq_true, decide_eq_true_eq]
  constructor
  · rintro ⟨-, h⟩
    rw [Multiset.le_iff_count]
    intro c
    by_cases hc : c ∈ compare
    · exact h c (Multiset.mem_toFinset.mpr hc)
    · simp [Multiset.count_eq_zero_of_not_mem hc]
  · intro h
    refine ⟨Finset.card_le_card ?_, fun c _ => Multiset.le_iff_count.mp h c⟩
    intro c hc
    exact Multiset.mem_toFinset.mpr (Multiset.mem_of_le h (Multiset.mem_toFinset.mp hc))

/-- C3: whenever `contains_chars S T` holds, `subtract_chars S T` succeeds and
adding `T` back with `add_chars` restores `S` exactly. -/
theorem subtract_then_add_restores (S T : Multiset Char)
    (h : contains_chars S T = true) :
    (subtract_chars S T).2 = true ∧ add_chars (subtract_chars S T).1 T = S := by
  have hle : T ≤ S := (contains_chars_iff_le S T).mp h
  unfold subtract_chars add_chars
  rw [if_pos h]
  exact ⟨rfl, tsub_add_cancel_of_le hle⟩

/-- C3 witness: the inverse law evaluated at the concrete pair
S = {a, a, b}, T = {a, b}. -/
theorem subtract_then_add_restores_witness :
    contains_chars {'a', 'a', 'b'} {'a', 'b'} = true ∧
      ((subtract_chars {'a', 'a', 'b'} {'a', 'b'}).2 = true ∧
        add_chars (subtract_chars {'a', 'a', 'b'} {'a', 'b'}).1 {'a', 'b'} =
          {'a', 'a', 'b'}) :=
  ⟨by decide, subtract_then_add_restores _ _ (by decide)⟩

/-- C8 counterexample: `count_chars` does not ignore whitespace.  On the text
consisting of one space, the whitespace character appears as a key of the
resulting counter (the source strips spaces in `get_anagram`, main.rs:58,
before `count_chars` is ever called, not inside `count_chars`). -/
theorem count_chars_whitespace_cex :
    (' ').isWhitespace = true ∧ ' ' ∈ count_chars [' '] := by
  exact ⟨by decide, by rw [count_chars_eq_coe]; decide⟩

/-- C8 (amended): `count_chars` counts every character of the text, including
whitespace: the count of each character in the result equals its number of
occurrences in the input.  (Whitespace removal is performed upstream by the
caller, so whitespace appears as a key exactly when present in the input.) -/
theorem count_chars_counts_all (s : List Char) (c : Char) :
    (count_chars s).count c = s.count c := by
  rw [count_chars_eq_coe, Multiset.coe_count]

/-!
## C7 — the ordered key list built in `main` (main.rs:516-524)

Keys are sorted-letter strings, modelled as `List Char` with the
lexicographic linear order (Rust compares strings by byte, which for UTF-8
agrees with code-point order; `len()` is modelled as the character count,
which agrees with the byte count on the ASCII dictionary keys).
The source sorts ascending by the comparator
`a.len().cmp(&b.len())`, ties broken by `b.cmp(a)`, and then reverses
the whole vector.
-/

/-- The comparator of main.rs:517-523 as a "compare(a,b) is not Greater"
relation: `a` is smaller when its length is, ties comparing the reversed
pair `b.cmp(a)`. -/
def sort_key_le (a b : List Char) : Prop :=
  a.length < b.length ∨ (a.length = b.length ∧ b ≤ a)

instance : DecidableRel sort_key_le := fun a b =>
  inferInstanceAs (Decidable (a.length < b.length ∨ (a.length = b.length ∧ b ≤ a)))

/-- The key-list construction (main.rs:516-524): `sort_by` the comparator,
then `reverse`. -/
def sort_anagram_keys (keys : List (List Char)) : List (List Char) :=
  (List.insertionSort sort_key_le keys).reverse

/-- The ordering claimed by the spec: letter count descending, ties in
descending (reverse lexicographic) key order. -/
def spec_key_order (a b : List Char) : Prop :=
  b.length < a.length ∨ (a.length = b.length ∧ b ≤ a)

/-- The ordering the code actually produces: letter count descending, ties in
ascending (plain lexicographic) key order. -/
def amended_key_order (a b : List Char) : Prop :=
  b.length < a.length ∨ (a.length = b.length ∧ a ≤ b)

instance : DecidableRel spec_key_order := fun a b =>
  inferInstanceAs (Decidable (b.length < a.length ∨ (a.length = b.length ∧ b ≤ a)))

instance : DecidableRel amended_key_order := fun a b =>
  inferInstanceAs (Decidable (b.length < a.length ∨ (a.length = b.length ∧ a ≤ b)))

instance : IsTotal (List Char) sort_key_le where
  total a b := by
    unfold sort_key_le
    rcases lt_trichotomy a.length b.length with h | h | h
    · exact Or.inl (Or.inl h)
    · rcases le_total a b with hab | hab
      · exact Or.inr (Or.inr ⟨h.symm, hab⟩)
      · exact Or.inl (Or.inr ⟨h, hab⟩)
    · exact Or.inr (Or.inl h)

instance : IsTrans (List Char) sort_key_le where
  trans a b c hab hbc := by
    unfold sort_key_le at *
    rcases hab with h1 | ⟨h1, h1'⟩ <;> rcases hbc with h2 | ⟨h2, h2'⟩
    · exact Or.inl (by omega)
    · exact Or.inl (by omega)
    · exact Or.inl (by omega)
    · exact Or.inr ⟨by omega, h2'.trans h1'⟩

/-- C7 counterexample: for the key set {"ab", "cd"} the produced list is
["ab", "cd"], which is not sorted with equal-length ties in descending key
order (that would require "cd" before "ab"). -/
theorem sort_anagram_keys_spec_cex :
    sort_anagram_keys [['a', 'b'], ['c', 'd']] = [['a', 'b'], ['c', 'd']] ∧
      ¬ List.Sorted spec_key_order [['a', 'b'], ['c', 'd']] := by
  constructor
  · decide
  · intro h
    have h2 : spec_key_order ['a', 'b'] ['c', 'd'] :=
      List.rel_of_sorted_cons h _ (List.mem_singleton.mpr rfl)
    revert h2
    decide

/-- C7 (amended): the ordered key list is sorted by letter count descending,
and among keys of equal letter count by key text ascending (plain
lexicographic order) — the final `reverse` of an ascending-by-comparator sort
flips the descending tie order the comparator used. -/
theorem sort_anagram_keys_sorted (keys : List (List Char)) :
    List.Sorted amended_key_order (sort_anagram_keys keys) := by
  have h : List.Sorted sort_key_le (List.insertionSort sort_key_le keys) :=
    List.sorted_insertionSort sort_key_le keys
  unfold sort_anagram_keys
  rw [List.Sorted, List.pairwise_reverse]
  refine h.imp ?_
  intro a b hab
  rcases hab with h1 | ⟨h1, h1'⟩
  · exact Or.inl h1
  · exact Or.inr ⟨h1.symm, h1'⟩

/-!
## C9 — `test_md5_checksums` (main.rs:462-473)

The hash function is a parameter `md5c : String → D` into an arbitrary digest
type (MD5 itself is configuration, per the spec), and `Instant::now()` is a
parameter `now`.  The branch's solution map `HashMap<String, ...>` is
modelled as an association list with insert-overwrite; the channel send is
modelled by returning the list of messages emitted during the call.
-/

/-- `AnagramSolutionMetrics` (main.rs:30-33): the checksum and discovery time
of one matched phrase. -/
structure AnagramSolutionMetrics (D : Type) where
  anagram_phrase_checksum : D
  anagram_phrase_time : Nat
deriving DecidableEq

/-- The fields of `AnagramMetrics` (main.rs:38-45) that `test_md5_checksums`
touches: the solution map and the phrases-composed counter
(`anagram_phrases_found`). -/
structure AnagramMetrics (D : Type) where
  anagram_phrase_solution : List (String × AnagramSolutionMetrics D)
  anagram_phrases_found : Nat
deriving DecidableEq

/-- `HashMap::insert`: the key's previous entry, if any, is overwritten. -/
def solution_insert {D : Type} (m : List (String × AnagramSolutionMetrics D))
    (k : String) (v : AnagramSolutionMetrics D) :
    List (String × AnagramSolutionMetrics D) :=
  (k, v) :: m.filter (fun p => p.1 ≠ k)

/-- `test_md5_checksums` (main.rs:462-473): always bump
`anagram_phrases_found`; when the phrase's hash is one of the targets, insert
(phrase ↦ (hash, now)) into the solution map and immediately send the updated
metrics on the channel.  Returns (final metrics, messages sent). -/
def test_md5_checksums {D : Type} [DecidableEq D] (md5c : String → D) (now : Nat)
    (phrase : String) (md5_checksums : Finset D) (anagram_metrics : AnagramMetrics D) :
    AnagramMetrics D × List (AnagramMetrics D) :=
  let m1 : AnagramMetrics D :=
    { anagram_metrics with anagram_phrases_found := anagram_metrics.anagram_phrases_found + 1 }
  if md5c phrase ∈ md5_checksums then
    let sol := solution_insert m1.anagram_phrase_solution phrase (AnagramSolutionMetrics.mk (md5c phrase) now)
    let m2 : AnagramMetrics D := { m1 with anagram_phrase_solution := sol }
    (m2, [m2])
  else (m1, [])

/-- C9: for every rendered phrase, `test_md5_checksums` increments the
phrases-composed counter (matched or not); exactly when the phrase's hash is
in the target set it records the phrase text, its computed hash and the
current time in the metrics and immediately sends the updated metrics (one
message, during the call); otherwise nothing is sent and the solution map is
unchanged. -/
theorem test_md5_checksums_spec {D : Type} [DecidableEq D] (md5c : String → D)
    (now : Nat) (phrase : String) (md5_checksums : Finset D)
    (m : AnagramMetrics D) :
    ((test_md5_checksums md5c now phrase md5_checksums m).1.anagram_phrases_found
        = m.anagram_phrases_found + 1) ∧
    (md5c phrase ∈ md5_checksums →
      (test_md5_checksums md5c now phrase md5_checksums m).2
          = [(test_md5_checksums md5c now phrase md5_checksums m).1] ∧
      List.lookup phrase
          (test_md5_checksums md5c now phrase md5_checksums m).1.anagram_phrase_solution
          = some ⟨md5c phrase, now⟩) ∧
    (md5c phrase ∉ md5_checksums →
      (test_md5_checksums md5c now phrase md5_checksums m).2 = [] ∧
      (test_md5_checksums md5c now phrase md5_checksums m).1.anagram_phrase_solution
          = m.anagram_phrase_solution) := by
  simp only [test_md5_checksums]
  by_cases h : md5c phrase ∈ md5_checksums
  · simp only [if_pos h]
    refine ⟨by simp, fun _ => ⟨by simp, ?_⟩, fun h' => absurd h h'⟩
    simp [solution_insert, List.lookup]
  · simp only [if_neg h]
    exact ⟨by simp, fun h' => absurd h' h, fun _ => ⟨by simp, by simp⟩⟩

/-!
## C10 — `permutate_anagram_words` (main.rs:414-459)

The word expander walks the chosen ordering `anagrams_collected` from
`resume_idx`; it is modelled on the remaining suffix of the ordering (the
source indexes `anagrams_collected[resume_idx]`, the model pattern-matches
the suffix).  `anagram_phrase_vec` accumulates the chosen words.  The value
returned is the list of rendered phrases handed to `test_md5_checksums`, in
order; each of those calls is what increments the phrases-composed counter,
so an empty result means the counter is never touched.
-/

/-- Rendering of main.rs:425-431: join the chosen words with single spaces
(push each word plus a space, pop the final space). -/
def render_phrase (ws : List String) : String :=
  String.intercalate " " ws

/-- The `for word in words` loop of main.rs:444-458: for each candidate word,
push it, recurse (the continuation `next`), pop it.  `next` is the recursive
call of `permutate_anagram_words` at the next index. -/
def expand_words (next : List String → List String) :
    List String → List String → List String
  | [], _ => []
  | w :: ws, anagram_phrase_vec =>
      next (anagram_phrase_vec ++ [w]) ++ expand_words next ws anagram_phrase_vec

/-- `permutate_anagram_words` (main.rs:414-459): at the end of the ordering,
render the accumulated words and emit the phrase (main.rs:424-435); otherwise
look the current key up in `anagrams_sorted_map`; if the key has no entry
(`words.is_none()`), return with no phrases (main.rs:440-442); else expand
each candidate word. -/
def permutate_anagram_words (anagrams_sorted_map : String → Option (List String)) :
    List String → List String → List String
  | [], anagram_phrase_vec => [render_phrase anagram_phrase_vec]
  | anagram_sorted :: rest, anagram_phrase_vec =>
    match anagrams_sorted_map anagram_sorted with
    | none => []
    | some words =>
        expand_words (permutate_anagram_words anagrams_sorted_map rest)
          words anagram_phrase_vec

theorem expand_words_nil (next : List String → List String)
    (hnext : ∀ acc, next acc = []) :
    ∀ ws acc, expand_words next ws acc = [] := by
  intro ws
  induction ws with
  | nil => intro acc; rfl
  | cons w ws ih =>
    intro acc
    simp only [expand_words, hnext, ih, List.nil_append]

/-- C10: if the ordering (from the current index on) contains a key with no
entry in the sorted-key-to-words map, the word expander produces no phrase at
all for that ordering — so `test_md5_checksums` is never called and no
counter is incremented — and it returns normally (the model is a total
function; the source checks `words.is_none()` before unwrapping, so no panic
path is reachable). -/
theorem permutate_anagram_words_missing_key
    (anagrams_sorted_map : String → Option (List String))
    (ordering acc : List String) (k : String) (hk : k ∈ ordering)
    (hnone : anagrams_sorted_map k = none) :
    permutate_anagram_words anagrams_sorted_map ordering acc = [] := by
  induction ordering generalizing acc with
  | nil => cases hk
  | cons a rest ih =>
    rcases List.mem_cons.mp hk with rfl | hmem
    · simp only [permutate_anagram_words, hnone]
    · cases hmap : anagrams_sorted_map a with
      | none => simp only [permutate_anagram_words, hmap]
      | some words =>
        simp only [permutate_anagram_words, hmap]
        exact expand_words_nil _ (fun acc' => ih acc' hmem) words acc

/-- C10 witness: a concrete ordering containing the key "ab", which the map
sends to `none`: the expander yields no phrase. -/
theorem permutate_anagram_words_missing_key_witness :
    permutate_anagram_words
        (fun k => if k = "cd" then some ["dc"] else none)
        ["cd", "ab"] [] = [] :=
  permutate_anagram_words_missing_key _ ["cd", "ab"] [] "ab"
    (by decide) (by decide)

/-!
## C4, C5, C6 — the scheduler `search_anagram_phrases` (main.rs:158-267)

The scheduler's interaction with the branches goes through a single mpsc
channel.  The channel's delivery order is modelled by a list of messages the
scheduler will receive, in order; each message is a branch's metrics
snapshot, of which the scheduler only uses the `is_done` flag and the
solution map (whose key set is what `len()` and `extend` act on, so it is
modelled as a `Finset String` of matched phrase texts).  Spawning a task is
an effect the scheduler state does not read back, so a launch is modelled by
the count bump the source performs; whether a root is launched at all is the
result of the `subtract_chars` pre-check (main.rs:190-192), modelled as a
`Bool` per root.
-/

/-- What the scheduler reads out of one received `AnagramMetrics` message:
the terminal flag and the solution map's key set. -/
structure SchedMsg where
  is_done : Bool
  solution_keys : Finset String
deriving DecidableEq

/-- The scheduler-local state of main.rs:162-170: the outstanding-branch
counter, the success counter, the merged solution-map key set, and the
roots-exhausted total maintained by `add_metrics` (main.rs:148-155). -/
structure SchedState where
  count_concurrent : Nat
  count_success : Nat
  solutions : Finset String
  roots_exhausted : Nat
deriving DecidableEq

/-- Outcome of the root loop (main.rs:180-245). -/
inductive SchedOutcome where
  /-- the success branch ran `process::exit(0)` (main.rs:225-243) -/
  | exited (s : SchedState)
  /-- the loop ran out of roots; the remaining messages were never received -/
  | completed (s : SchedState) (rest : List SchedMsg)
  /-- `rx.recv()` was reached with no message in the modelled trace: the real
  scheduler would block here until some branch sends -/
  | starved
deriving DecidableEq

/-- The receive block of the root loop (main.rs:214-224): merge the message's
solutions into the global map; a terminal message frees one slot and is
tallied by `add_metrics`; a non-terminal (match) message adds the size of its
whole solution map to `count_success`.  Returns the new state and whether the
exit-on-success test `count_success >= md5_checksums.len()` (main.rs:225)
passed. -/
def sched_recv (targets : Nat) (s : SchedState) (msg : SchedMsg) : SchedState × Bool :=
  let merged := s.solutions ∪ msg.solution_keys
  let s1 :=
    if msg.is_done then
      { s with
          solutions := merged,
          count_concurrent := s.count_concurrent - 1,
          roots_exhausted := s.roots_exhausted + 1 }
    else
      { s with
          solutions := merged,
          count_success := s.count_success + msg.solution_keys.card }
  (s1, decide (targets ≤ s1.count_success))

/-- The root loop of main.rs:180-245.  `roots` holds one `Bool` per ordered
key: `true` when the `subtract_chars` pre-check succeeded, so a branch is
launched (main.rs:190-209); `mrecv` counts the non-terminal (match) messages
received so far; `snaps` records, after every launch, the pair
(count_concurrent, mrecv so far) — count_concurrent is the number
of launched branches whose terminal message has not been received.  Once
`count_concurrent >= num_concurrent` the scheduler blocks for exactly one
message before the next iteration (main.rs:212-224). -/
def search_loop (num_concurrent targets : Nat) :
    List Bool → SchedState → List SchedMsg → Nat → List (Nat × Nat) →
    SchedOutcome × List (Nat × Nat)
  | [], s, msgs, _, snaps => (SchedOutcome.completed s msgs, snaps)
  | launch :: roots, s, msgs, mrecv, snaps =>
    if launch then
      let s1 := { s with count_concurrent := s.count_concurrent + 1 }
      let snaps1 := snaps ++ [(s1.count_concurrent, mrecv)]
      if num_concurrent ≤ s1.count_concurrent then
        match msgs with
        | [] => (SchedOutcome.starved, snaps1)
        | msg :: rest =>
          let r := sched_recv targets s1 msg
          if r.2 then (SchedOutcome.exited r.1, snaps1)
          else
            search_loop num_concurrent targets roots r.1 rest
              (if msg.is_done then mrecv else mrecv + 1) snaps1
      else search_loop num_concurrent targets roots s1 msgs mrecv snaps1
    else search_loop num_concurrent targets roots s msgs mrecv snaps

/-- Outcome of the completion loop (main.rs:247-266). -/
inductive DrainOutcome where
  /-- success: `process::exit(0)` at main.rs:262 -/
  | exited (s : SchedState)
  /-- `count_concurrent == 0`: the loop breaks and the function returns -/
  | broke (s : SchedState) (rest : List SchedMsg)
  /-- `rx.recv()` reached with no modelled message pending -/
  | starved
  /-- the given number of loop iterations ran without breaking, exiting or
  receiving: the state and message queue are untouched -/
  | spinning (s : SchedState) (rest : List SchedMsg)
deriving DecidableEq

/-- The completion loop (main.rs:247-266), with an iteration budget `fuel`
(the real loop has none: exhausted fuel models an execution fragment).  Note
the loop only ever receives while `count_concurrent >= num_concurrent`
(main.rs:252), and in it `count_success` grows by the solution count of every
received message, terminal or not (main.rs:254). -/
def completion_loop (num_concurrent targets : Nat) :
    Nat → SchedState → List SchedMsg → DrainOutcome
  | 0, s, msgs => DrainOutcome.spinning s msgs
  | fuel + 1, s, msgs =>
    if s.count_concurrent = 0 then DrainOutcome.broke s msgs
    else if num_concurrent ≤ s.count_concurrent then
      match msgs with
      | [] => DrainOutcome.starved
      | msg :: rest =>
        let s1 := { s with count_success := s.count_success + msg.solution_keys.card }
        let s2 :=
          if msg.is_done then
            { s1 with
                count_concurrent := s1.count_concurrent - 1,
                roots_exhausted := s1.roots_exhausted + 1 }
          else s1
        if targets ≤ s2.count_success then DrainOutcome.exited s2
        else completion_loop num_concurrent targets fuel s2 rest
    else completion_loop num_concurrent targets fuel s msgs

/-- C4 counterexample: with one core, three target checksums and a branch
that reports two matched phrases (its second message's cumulative solution map
holding both phrases), the exit-on-success path is taken although only two
distinct phrases were ever matched: `count_success` re-counts the first
phrase when the second cumulative message arrives (1 + 2 ≥ 3). -/
theorem search_exit_distinct_cex :
    (search_loop 1 3 [true, true] ⟨0, 0, ∅, 0⟩
        [⟨false, {"p1"}⟩, ⟨false, {"p1", "p2"}⟩] 0 []).1 =
      SchedOutcome.exited ⟨2, 3, {"p1", "p2"}, 0⟩ ∧
    ({"p1", "p2"} : Finset String).card < 3 := by
  exact ⟨by decide, by decide⟩

/-- Whether an outcome of the root loop is consistent with the exit condition
the code actually implements: the success exit is taken exactly when the
running counter `count_success` has reached the number of target checksums. -/
def exit_matches_counter (targets : Nat) : SchedOutcome → Bool
  | SchedOutcome.exited s => decide (targets ≤ s.count_success)
  | SchedOutcome.completed s _ => decide (s.count_success < targets)
  | SchedOutcome.starved => true

/-- C4 (amended): the exit-on-success path is taken exactly when the running
counter `count_success` reaches the number of target checksums — where
`count_success` accumulates, per received non-terminal message, the size of
that message's whole (cumulative) solution map, so it can reach the target
count before the number of distinct matched phrase texts does. -/
theorem search_exit_iff_counter (num_concurrent targets : Nat) (roots : List Bool)
    (s : SchedState) (msgs : List SchedMsg) (mrecv : Nat) (snaps : List (Nat × Nat))
    (hs : s.count_success < targets) :
    exit_matches_counter targets
      (search_loop num_concurrent targets roots s msgs mrecv snaps).1 = true := by
  induction roots generalizing s msgs mrecv snaps with
  | nil => simpa [search_loop, exit_matches_counter]
  | cons launch roots ih =>
    by_cases hl : launch
    · subst hl
      simp only [search_loop, if_true]
      by_cases hcap : num_concurrent ≤ s.count_concurrent + 1
      · simp only [if_pos hcap]
        cases msgs with
        | nil => simp [exit_matches_counter]
        | cons msg rest =>
          by_cases hexit : (sched_recv targets { s with count_concurrent := s.count_concurrent + 1 } msg).2 = true
          · simp only [hexit, if_true, exit_matches_counter]
            unfold sched_recv at hexit
            simpa using hexit
          · simp only [hexit, Bool.false_eq_true, if_false]
            apply ih
            unfold sched_recv at hexit ⊢
            by_cases hd : msg.is_done <;> simp [hd] at hexit ⊢ <;> omega
      · simp only [if_neg hcap]
        exact ih _ _ _ _ hs
    · simp only [Bool.not_eq_true] at hl
      subst hl
      simp only [search_loop, Bool.false_eq_true, if_false]
      exact ih _ _ _ _ hs

/-- C4 amended-theorem witness: the concrete run of the counterexample trace
satisfies the amended exit criterion (the counter, not the distinct count,
reached the target number). -/
theorem search_exit_iff_counter_witness :
    exit_matches_counter 3
      (search_loop 1 3 [true, true] ⟨0, 0, ∅, 0⟩
        [⟨false, {"p1"}⟩, ⟨false, {"p1", "p2"}⟩] 0 []).1 = true :=
  search_exit_iff_counter 1 3 [true, true] ⟨0, 0, ∅, 0⟩
    [⟨false, {"p1"}⟩, ⟨false, {"p1", "p2"}⟩] 0 [] (by decide)

/-- C5: the completion loop never makes progress when
`0 < count_concurrent < num_concurrent`: it neither breaks, nor receives, nor
exits, for any number of iterations — the branch's pending terminal message
is never read (main.rs:252 only receives while
`count_concurrent >= num_concurrent`).  The first conjunct shows the state is
reachable: with two cores and a single launchable root, the root loop
finishes with `count_concurrent = 1` and the drain loop is entered there. -/
theorem completion_loop_never_receives (fuel : Nat) :
    (search_loop 2 3 [true] ⟨0, 0, ∅, 0⟩ [] 0 []).1 =
      SchedOutcome.completed ⟨1, 0, ∅, 0⟩ [] ∧
    completion_loop 2 3 fuel ⟨1, 0, ∅, 0⟩ [⟨true, ∅⟩] =
      DrainOutcome.spinning ⟨1, 0, ∅, 0⟩ [⟨true, ∅⟩] := by
  refine ⟨by decide, ?_⟩
  induction fuel with
  | zero => rfl
  | succ fuel ih => simpa [completion_loop]

/-- C5 witness at a concrete iteration count. -/
theorem completion_loop_never_receives_witness :
    completion_loop 2 3 9 ⟨1, 0, ∅, 0⟩ [⟨true, ∅⟩] =
      DrainOutcome.spinning ⟨1, 0, ∅, 0⟩ [⟨true, ∅⟩] :=
  (completion_loop_never_receives 9).2

/-- C6 counterexample: with one execution unit (`num_concurrent = 1`) and a
match (non-terminal) message received after the first launch, the root loop
launches a second branch while the first is still outstanding: a recorded
instant has 2 launched-but-not-done branches, exceeding the bound 1. -/
theorem concurrency_bound_cex :
    (2, 1) ∈ (search_loop 1 99 [true, true] ⟨0, 0, ∅, 0⟩
        [⟨false, {"x"}⟩] 0 []).2 ∧ 1 < 2 := by
  exact ⟨by decide, by decide⟩

/-- C6 (amended): a received match message does not free a concurrency slot
(only terminal messages decrement the counter) yet the loop proceeds to the
next launch after one receive, so the correct bound at every instant after a
launch is `num_concurrent + (match messages received so far)`; the
outstanding count stays within `num_concurrent` only while no match message
has been received. -/
theorem concurrency_bound_amended_aux (num_concurrent targets : Nat)
    (roots : List Bool) :
    ∀ (s : SchedState) (msgs : List SchedMsg) (mrecv : Nat) (snaps : List (Nat × Nat)),
      s.count_concurrent < num_concurrent + mrecv →
      (snaps.all (fun p => decide (p.1 ≤ num_concurrent + p.2))) = true →
      (((search_loop num_concurrent targets roots s msgs mrecv snaps).2).all
        (fun p => decide (p.1 ≤ num_concurrent + p.2))) = true := by
  induction roots with
  | nil =>
    intro s msgs mrecv snaps _ hsnaps
    simpa [search_loop] using hsnaps
  | cons launch roots ih =>
    intro s msgs mrecv snaps hinv hsnaps
    by_cases hl : launch
    · subst hl
      simp only [search_loop, if_true]
      have hsnaps1 :
          ((snaps ++ [(s.count_concurrent + 1, mrecv)]).all
            (fun p => decide (p.1 ≤ num_concurrent + p.2))) = true := by
        rw [List.all_append, hsnaps]
        simp only [List.all_cons, List.all_nil, Bool.true_and, Bool.and_true,
          decide_eq_true_eq]
        omega
      by_cases hcap : num_concurrent ≤ s.count_concurrent + 1
      · simp only [if_pos hcap]
        cases msgs with
        | nil => simpa using hsnaps1
        | cons msg rest =>
          by_cases hexit :
              (sched_recv targets { s with count_concurrent := s.count_concurrent + 1 } msg).2 = true
          · simpa [hexit] using hsnaps1
          · simp only [hexit, Bool.false_eq_true, if_false]
            refine ih _ _ _ _ ?_ hsnaps1
            unfold sched_recv
            by_cases hd : msg.is_done <;>
              simp only [hd, if_true, Bool.false_eq_true, if_false] <;> omega
      · simp only [if_neg hcap]
        refine ih _ _ _ _ ?_ hsnaps1
        show s.count_concurrent + 1 < num_concurrent + mrecv
        omega
    · simp only [Bool.not_eq_true] at hl
      subst hl
      simp only [search_loop, Bool.false_eq_true, if_false]
      exact ih _ _ _ _ hinv hsnaps

/-- C6 (amended): a received match message does not free a concurrency slot
(only terminal messages decrement the counter) yet the loop proceeds to the
next launch after one receive, so the correct bound at every instant after a
launch is `num_concurrent + (match messages received so far)`; the
outstanding count stays within `num_concurrent` only while no match message
has been received. -/
theorem concurrency_bound_amended (num_concurrent targets : Nat) (roots : List Bool)
    (s : SchedState) (msgs : List SchedMsg) (mrecv : Nat)
    (hinv : s.count_concurrent < num_concurrent + mrecv) :
    (((search_loop num_concurrent targets roots s msgs mrecv []).2).all
      (fun p => decide (p.1 ≤ num_concurrent + p.2))) = true :=
  concurrency_bound_amended_aux num_concurrent targets roots s msgs mrecv [] hinv rfl

/-- C6 amended-theorem witness: the counterexample trace satisfies the
corrected bound (2 outstanding ≤ 1 core + 1 match message received). -/
theorem concurrency_bound_amended_witness :
    (((search_loop 1 99 [true, true] ⟨0, 0, ∅, 0⟩
        [⟨false, {"x"}⟩] 0 []).2).all
      (fun p => decide (p.1 ≤ 1 + p.2))) = true :=
  concurrency_bound_amended 1 99 [true, true] ⟨0, 0, ∅, 0⟩
    [⟨false, {"x"}⟩] 0 (by decide)

/-!
## C1 — `traverse_anagram_phrases` (main.rs:301-354)

The recursive composition search.  The ordered key list is a `List` of key
character-multisets (`anagrams_sorted_vec` together with the
`anagrams_sorted_chars` lookup); the `anagrams_collected_ref` stack is a list
of key indices (the keys of the vector are distinct, so an index determines
the key).  The source mutates `anagram_chars_search` in place and undoes every
successful subtraction exactly once after the recursive call returns
(main.rs:340-352); in the functional model each call simply keeps using its
own value of `remaining`/`collected` after the recursive call, which is the
same invariant.

The simulation runs on fuel, one unit per `traverse_anagram_phrases` call;
exhausted fuel yields `none` for the whole run (an execution fragment too
short to finish), so a `some` result is exactly a complete, terminating run.
The run is recorded as an event trace: one `accept` per empty-remaining call
(the source then invokes the permutation engine on the collected stack), and
one `enter`/`failed` per scan iteration according to the `subtract_chars`
pre-check.
-/

/-- One observable event of the composition search. -/
inductive TravEv where
  /-- a call with empty `remaining` accepted the collected composition -/
  | accept (collected : List Nat)
  /-- the scan at absolute index `i`, with `remaining` left, passed the
  `subtract_chars` pre-check and recursed -/
  | enter (i : Nat) (remaining : Multiset Char)
  /-- the pre-check failed: `anagram_phrases_incomplete` is bumped and the
  scan moves on without recursing -/
  | failed (i : Nat) (remaining : Multiset Char)
deriving DecidableEq

/-- The scan loop of main.rs:332-353 over the key suffix starting at absolute
index `i` (the source iterates `.skip(resume_index)` and recurses with
`resume_index + anagram_sorted_index`, i.e. with the current absolute index,
so the same key may be chosen again).  `next` is the recursive call at one
less fuel. -/
def traverse_scan (next : Multiset Char → Nat → List Nat → Option (List TravEv)) :
    List (Multiset Char) → Nat → Multiset Char → List Nat → Option (List TravEv)
  | [], _, _, _ => some []
  | k :: rest, i, remaining, collected =>
    if (subtract_chars remaining k).2 then
      match next (subtract_chars remaining k).1 i (collected ++ [i]) with
      | none => none
      | some inner =>
        match traverse_scan next rest (i + 1) remaining collected with
        | none => none
        | some tail => some (TravEv.enter i remaining :: (inner ++ tail))
    else
      match traverse_scan next rest (i + 1) remaining collected with
      | none => none
      | some tail => some (TravEv.failed i remaining :: tail)

/-- `traverse_anagram_phrases` (main.rs:301-354): an empty remaining multiset
(`len() == 0`) accepts and returns without scanning; otherwise scan the key
list from `resume_index`. -/
def traverse_anagram_phrases (keys : List (Multiset Char)) :
    Nat → Multiset Char → Nat → List Nat → Option (List TravEv)
  | 0, _, _, _ => none
  | fuel + 1, remaining, resume_index, collected =>
    if remaining = 0 then some [TravEv.accept collected]
    else
      traverse_scan (traverse_anagram_phrases keys fuel)
        (keys.drop resume_index) resume_index remaining collected

/-- The accepted compositions of a trace, in order of acceptance. -/
def accepts (evs : List TravEv) : List (List Nat) :=
  evs.filterMap (fun e =>
    match e with
    | TravEv.accept c => some c
    | _ => none)

/-- A valid completion from scan position `i`: indices in non-decreasing
order, all at least `i` and in range, whose keys' combined letters sum
exactly to `remaining`. -/
def IsCompletion (keys : List (Multiset Char)) (remaining : Multiset Char)
    (i : Nat) (ext : List Nat) : Prop :=
  List.Chain' (· ≤ ·) ext ∧ (∀ j ∈ ext, i ≤ j ∧ j < keys.length) ∧
    (ext.map (fun j => keys.getD j 0)).sum = remaining

instance (keys : List (Multiset Char)) (remaining : Multiset Char)
    (i : Nat) (ext : List Nat) : Decidable (IsCompletion keys remaining i ext) :=
  inferInstanceAs (Decidable (List.Chain' (· ≤ ·) ext ∧
    (∀ j ∈ ext, i ≤ j ∧ j < keys.length) ∧
    (ext.map (fun j => keys.getD j 0)).sum = remaining))

theorem subtract_chars_snd (source subtract : Multiset Char) :
    (subtract_chars source subtract).2 = contains_chars source subtract := by
  unfold subtract_chars
  split <;> simp_all

theorem subtract_chars_snd_iff (source subtract : Multiset Char) :
    (subtract_chars source subtract).2 = true ↔ subtract ≤ source := by
  rw [subtract_chars_snd, contains_chars_iff_le]

theorem subtract_chars_fst_of_le {source subtract : Multiset Char}
    (h : subtract ≤ source) :
    (subtract_chars source subtract).1 = source - subtract := by
  unfold subtract_chars
  rw [if_pos ((contains_chars_iff_le source subtract).mpr h)]

theorem accepts_append (evs1 evs2 : List TravEv) :
    accepts (evs1 ++ evs2) = accepts evs1 ++ accepts evs2 :=
  List.filterMap_append evs1 evs2 _

theorem accepts_enter (i : Nat) (R : Multiset Char) (evs : List TravEv) :
    accepts (TravEv.enter i R :: evs) = accepts evs := rfl

theorem accepts_failed (i : Nat) (R : Multiset Char) (evs : List TravEv) :
    accepts (TravEv.failed i R :: evs) = accepts evs := rfl

/-- Termination of the scan given termination of the recursive calls: every
successful subtraction of a nonempty key strictly shrinks the remaining
multiset. -/
theorem traverse_scan_isSome (keys : List (Multiset Char))
    (hk : ∀ m ∈ keys, m ≠ 0) (fuel : Nat)
    (hnext : ∀ remaining resume collected, Multiset.card remaining < fuel →
      (traverse_anagram_phrases keys fuel remaining resume collected).isSome) :
    ∀ (sfx : List (Multiset Char)), (∀ m ∈ sfx, m ∈ keys) →
      ∀ i remaining collected, Multiset.card remaining ≤ fuel →
        (traverse_scan (traverse_anagram_phrases keys fuel)
          sfx i remaining collected).isSome := by
  intro sfx
  induction sfx with
  | nil => intro _ i remaining collected _; simp [traverse_scan]
  | cons k rest ih =>
    intro hmem i remaining collected hcard
    have htail := ih (fun m hm => hmem m (List.mem_cons_of_mem k hm))
      (i + 1) remaining collected hcard
    simp only [traverse_scan]
    by_cases hsub : (subtract_chars remaining k).2 = true
    · have hle : k ≤ remaining := (subtract_chars_snd_iff remaining k).mp hsub
      have hkne : k ≠ 0 := hk k (hmem k (List.mem_cons_self _ _))
      have hcard' : Multiset.card (remaining - k) < fuel := by
        have h1 : Multiset.card (remaining - k) =
            Multiset.card remaining - Multiset.card k := Multiset.card_sub hle
        have h2 : 0 < Multiset.card k := Multiset.card_pos.mpr hkne
        have h3 : Multiset.card k ≤ Multiset.card remaining :=
          Multiset.card_le_card hle
        omega
      have hinner := hnext (subtract_chars remaining k).1 i (collected ++ [i]) (by
        rwa [subtract_chars_fst_of_le hle])
      rw [if_pos hsub]
      rcases Option.isSome_iff_exists.mp hinner with ⟨inner, hi⟩
      rcases Option.isSome_iff_exists.mp htail with ⟨tail, ht⟩
      rw [hi, ht]
      rfl
    · rw [if_neg hsub]
      rcases Option.isSome_iff_exists.mp htail with ⟨tail, ht⟩
      rw [ht]
      rfl

/-- Termination: with all keys nonempty, any fuel beyond the remaining letter
count suffices (the recursion depth is bounded by the letter count, spec
§4.3). -/
theorem traverse_isSome (keys : List (Multiset Char))
    (hk : ∀ m ∈ keys, m ≠ 0) :
    ∀ (fuel : Nat) (remaining : Multiset Char) (resume_index : Nat)
      (collected : List Nat), Multiset.card remaining < fuel →
      (traverse_anagram_phrases keys fuel remaining resume_index collected).isSome := by
  intro fuel
  induction fuel with
  | zero => intro _ _ _ h; omega
  | succ fuel ih =>
    intro remaining resume_index collected hcard
    simp only [traverse_anagram_phrases]
    by_cases h0 : remaining = 0
    · rw [if_pos h0]; rfl
    · rw [if_neg h0]
      have hR : 0 < Multiset.card remaining := Multiset.card_pos.mpr h0
      exact traverse_scan_isSome keys hk fuel ih (keys.drop resume_index)
        (fun m hm => List.mem_of_mem_drop hm) resume_index remaining collected
        (by omega)

theorem chain'_le_head {j : Nat} {l : List Nat} (h : List.Chain' (· ≤ ·) (j :: l)) :
    ∀ x ∈ l, j ≤ x := by
  have hp := List.chain'_iff_pairwise.mp h
  intro x hx
  exact List.rel_of_pairwise_cons hp hx

/-- The single-step decomposition of `IsCompletion` the scan performs: with
`remaining ≠ 0` and the key at `i` available, the completions from `i` are
exactly: `i` followed by a completion of the rest from `i`, or a completion
from `i + 1`. -/
theorem isCompletion_cons_iff (keys : List (Multiset Char)) (remaining : Multiset Char)
    (i : Nat) (hi : i < keys.length) (hne : remaining ≠ 0) (ext : List Nat) :
    IsCompletion keys remaining i ext ↔
      ((∃ ext', ext = i :: ext' ∧ keys.getD i 0 ≤ remaining ∧
          IsCompletion keys (remaining - keys.getD i 0) i ext') ∨
        IsCompletion keys remaining (i + 1) ext) := by
  constructor
  · rintro ⟨hchain, hbound, hsum⟩
    cases ext with
    | nil => exact absurd hsum.symm (by simpa using hne)
    | cons j ext' =>
      rcases Nat.lt_or_ge i j with hij | hij
      · refine Or.inr ⟨hchain, ?_, hsum⟩
        intro x hx
        rcases List.mem_cons.mp hx with rfl | hx'
        · exact ⟨hij, (hbound x (List.mem_cons_self _ _)).2⟩
        · have hj : j ≤ x := chain'_le_head hchain x hx'
          exact ⟨by omega, (hbound x (List.mem_cons_of_mem j hx')).2⟩
      · have hji : j = i := le_antisymm (by omega) (hbound j (List.mem_cons_self _ _)).1
        subst hji
        simp only [List.map_cons, List.sum_cons] at hsum
        have hle : keys.getD j 0 ≤ remaining := hsum ▸ self_le_add_right _ _
        refine Or.inl ⟨ext', rfl, hle, List.Chain'.tail hchain, ?_, ?_⟩
        · intro x hx
          exact ⟨chain'_le_head hchain x hx, (hbound x (List.mem_cons_of_mem j hx)).2⟩
        · rw [← hsum, add_tsub_cancel_left]
  · rintro (⟨ext', rfl, hle, hchain, hbound, hsum⟩ | ⟨hchain, hbound, hsum⟩)
    · refine ⟨?_, ?_, ?_⟩
      · cases ext' with
        | nil => simp
        | cons x l =>
          exact List.chain'_cons.mpr ⟨(hbound x (List.mem_cons_self _ _)).1, hchain⟩
      · intro x hx
        rcases List.mem_cons.mp hx with rfl | hx'
        · exact ⟨le_refl _, hi⟩
        · exact ⟨(hbound x hx').1, (hbound x hx').2⟩
      · simp only [List.map_cons, List.sum_cons, hsum]
        rw [add_comm]
        exact tsub_add_cancel_of_le hle
    · exact ⟨hchain, fun x hx => ⟨by have := (hbound x hx).1; omega, (hbound x hx).2⟩,
        hsum⟩

theorem getD_of_lt {l : List (Multiset Char)} {i : Nat} (h : i < l.length) :
    l.getD i 0 = l[i] := by
  simp [List.getD_eq_getElem?_getD, List.getElem?_eq_getElem h]

/-- The exactly-once count of the scan, given it for the recursive calls:
every completion from position `i` is accepted exactly once, anything else
never. -/
theorem traverse_scan_count (keys : List (Multiset Char)) (fuel : Nat)
    (IH : ∀ remaining resume collected evs,
      traverse_anagram_phrases keys fuel remaining resume collected = some evs →
      (∀ ext, IsCompletion keys remaining resume ext →
          (accepts evs).count (collected ++ ext) = 1) ∧
      (∀ ys, (∀ ext, ys = collected ++ ext → ¬ IsCompletion keys remaining resume ext) →
          (accepts evs).count ys = 0)) :
    ∀ (sfx : List (Multiset Char)) (i : Nat), sfx = keys.drop i →
      ∀ remaining collected evs, remaining ≠ 0 →
        traverse_scan (traverse_anagram_phrases keys fuel) sfx i remaining collected
          = some evs →
        (∀ ext, IsCompletion keys remaining i ext →
            (accepts evs).count (collected ++ ext) = 1) ∧
        (∀ ys, (∀ ext, ys = collected ++ ext → ¬ IsCompletion keys remaining i ext) →
            (accepts evs).count ys = 0) := by
  intro sfx
  induction sfx with
  | nil =>
    intro i hdrop remaining collected evs hne hscan
    have hevs : evs = [] := by
      simpa [traverse_scan] using hscan.symm
    subst hevs
    have hlen : keys.length ≤ i := by
      by_contra h
      push_neg at h
      rw [List.drop_eq_getElem_cons h] at hdrop
      exact (List.cons_ne_nil _ _) hdrop.symm
    constructor
    · intro ext hext
      exfalso
      rcases hext with ⟨-, hbound, hsum⟩
      cases ext with
      | nil => exact hne (by simpa using hsum.symm)
      | cons j l =>
        have h1 := (hbound j (List.mem_cons_self _ _)).1
        have h2 := (hbound j (List.mem_cons_self _ _)).2
        omega
    · intro ys _
      simp [accepts]
  | cons k rest ihs =>
    intro i hdrop remaining collected evs hne hscan
    have hi : i < keys.length := by
      by_contra h
      push_neg at h
      rw [List.drop_eq_nil_iff.mpr (by omega)] at hdrop
      exact (List.cons_ne_nil _ _) hdrop
    rw [List.drop_eq_getElem_cons hi] at hdrop
    have hk_eq : k = keys.getD i 0 := by
      rw [getD_of_lt hi]
      exact (List.cons.injEq _ _ _ _ ▸ hdrop).1
    have hrest : rest = keys.drop (i + 1) :=
      (List.cons.injEq _ _ _ _ ▸ hdrop).2
    have hcons := isCompletion_cons_iff keys remaining i hi hne
    simp only [traverse_scan] at hscan
    by_cases hsub : (subtract_chars remaining k).2 = true
    · -- pre-check succeeded: enter event, inner run at the same index, tail
      have hle : k ≤ remaining := (subtract_chars_snd_iff remaining k).mp hsub
      rw [if_pos hsub] at hscan
      rcases hinner : traverse_anagram_phrases keys fuel (subtract_chars remaining k).1
          i (collected ++ [i]) with _ | inner
      · rw [hinner] at hscan; cases hscan
      rw [hinner] at hscan
      rcases htail : traverse_scan (traverse_anagram_phrases keys fuel) rest (i + 1)
          remaining collected with _ | tail
      · rw [htail] at hscan; cases hscan
      rw [htail] at hscan
      have hevs : evs = TravEv.enter i remaining :: (inner ++ tail) := by
        simpa using hscan.symm
      subst hevs
      rw [subtract_chars_fst_of_le hle] at hinner
      have hIH := IH _ _ _ _ hinner
      have hTail := ihs (i + 1) hrest remaining collected tail hne htail
      constructor
      · intro ext hext
        rcases hcons ext |>.mp hext with ⟨ext', rfl, hle', hext'⟩ | hshift
        · -- ext starts with i: counted once by the inner run, never by the tail
          have h1 : (accepts inner).count ((collected ++ [i]) ++ ext') = 1 := by
            apply hIH.1
            rwa [hk_eq]
          have h2 : (accepts tail).count (collected ++ i :: ext') = 0 := by
            apply hTail.2
            intro ext2 heq hext2
            have : ext2 = i :: ext' := (List.append_cancel_left heq.symm)
            subst this
            have := (hext2.2.1 i (List.mem_cons_self _ _)).1
            omega
          rw [accepts_enter, accepts_append, List.count_append]
          have hrw : collected ++ i :: ext' = (collected ++ [i]) ++ ext' := by
            simp
          rw [hrw] at h2 ⊢
          omega
        · -- ext starts beyond i: counted once by the tail, never by the inner run
          have hne_head : ∀ ext'', ext ≠ i :: ext'' := by
            intro ext'' hcontra
            subst hcontra
            have := (hshift.2.1 i (List.mem_cons_self _ _)).1
            omega
          have h1 : (accepts inner).count (collected ++ ext) = 0 := by
            apply hIH.2
            intro ext2 heq hext2
            have hsplit : ext = i :: ext2 := by
              have : collected ++ ext = collected ++ (i :: ext2) := by simpa using heq
              exact List.append_cancel_left this
            exact hne_head ext2 hsplit
          have h2 : (accepts tail).count (collected ++ ext) = 1 := hTail.1 ext hshift
          rw [accepts_enter, accepts_append, List.count_append]
          omega
      · intro ys hys
        have h1 : (accepts inner).count ys = 0 := by
          apply hIH.2
          intro ext2 heq hext2
          refine hys (i :: ext2) (by simpa using heq) ?_
          apply (hcons (i :: ext2)).mpr
          refine Or.inl ⟨ext2, rfl, ?_, ?_⟩
          · rwa [← hk_eq]
          · rwa [← hk_eq]
        have h2 : (accepts tail).count ys = 0 := by
          apply hTail.2
          intro ext2 heq hext2
          exact hys ext2 heq ((hcons ext2).mpr (Or.inr hext2))
        rw [accepts_enter, accepts_append, List.count_append]
        omega
    · -- pre-check failed: no recursion, failed event, scan moves on
      have hnle : ¬ k ≤ remaining := fun hcontra =>
        hsub ((subtract_chars_snd_iff remaining k).mpr hcontra)
      rw [if_neg hsub] at hscan
      rcases htail : traverse_scan (traverse_anagram_phrases keys fuel) rest (i + 1)
          remaining collected with _ | tail
      · rw [htail] at hscan; cases hscan
      rw [htail] at hscan
      have hevs : evs = TravEv.failed i remaining :: tail := by
        simpa using hscan.symm
      subst hevs
      have hTail := ihs (i + 1) hrest remaining collected tail hne htail
      constructor
      · intro ext hext
        rcases hcons ext |>.mp hext with ⟨ext', rfl, hle', hext'⟩ | hshift
        · exact absurd (hk_eq ▸ hle') hnle
        · rw [accepts_failed]
          exact hTail.1 ext hshift
      · intro ys hys
        rw [accepts_failed]
        apply hTail.2
        intro ext2 heq hext2
        exact hys ext2 heq ((hcons ext2).mpr (Or.inr hext2))

/-- The exactly-once count for a full terminating run. -/
theorem traverse_count (keys : List (Multiset Char))
    (hk : ∀ m ∈ keys, m ≠ 0) :
    ∀ (fuel : Nat) (remaining : Multiset Char) (resume_index : Nat)
      (collected : List Nat) (evs : List TravEv),
      traverse_anagram_phrases keys fuel remaining resume_index collected = some evs →
      (∀ ext, IsCompletion keys remaining resume_index ext →
          (accepts evs).count (collected ++ ext) = 1) ∧
      (∀ ys, (∀ ext, ys = collected ++ ext →
          ¬ IsCompletion keys remaining resume_index ext) →
          (accepts evs).count ys = 0) := by
  intro fuel
  induction fuel with
  | zero => intro _ _ _ _ h; cases h
  | succ fuel ih =>
    intro remaining resume_index collected evs hrun
    simp only [traverse_anagram_phrases] at hrun
    by_cases h0 : remaining = 0
    · subst h0
      rw [if_pos rfl] at hrun
      have hevs : evs = [TravEv.accept collected] := by simpa using hrun.symm
      subst hevs
      constructor
      · intro ext hext
        have hext0 : ext = [] := by
          rcases hext with ⟨-, hbound, hsum⟩
          cases ext with
          | nil => rfl
          | cons j l =>
            exfalso
            have hj := (hbound j (List.mem_cons_self _ _))
            have hkey : keys.getD j 0 ≠ 0 := by
              rw [getD_of_lt hj.2]
              exact hk _ (List.getElem_mem hj.2)
            have hsum' : keys.getD j 0 + ((l.map fun j => keys.getD j 0).sum)
                = (0 : Multiset Char) := by
              simpa using hsum
            have hcard := congrArg Multiset.card hsum'
            rw [Multiset.card_add] at hcard
            simp only [Multiset.card_zero] at hcard
            exact hkey (Multiset.card_eq_zero.mp (by omega))
        subst hext0
        simp [accepts]
      · intro ys hys
        have : ys ≠ collected := by
          intro hcontra
          exact hys [] (by simpa using hcontra) ⟨List.chain'_nil, by simp, by simp⟩
        simp [accepts, List.count_cons, this]
    · rw [if_neg h0] at hrun
      exact traverse_scan_count keys fuel (fun r ri c e h => ih r ri c e h)
        (keys.drop resume_index) resume_index rfl remaining collected evs h0 hrun


/-- Event soundness of the scan: an `enter` event is recorded exactly for a
key whose `subtract_chars` pre-check succeeded, a `failed` event exactly for
one whose pre-check failed. -/
theorem traverse_scan_events (keys : List (Multiset Char)) (fuel : Nat)
    (IH : ∀ remaining resume collected evs,
      traverse_anagram_phrases keys fuel remaining resume collected = some evs →
      (∀ i R, TravEv.enter i R ∈ evs → (subtract_chars R (keys.getD i 0)).2 = true) ∧
      (∀ i R, TravEv.failed i R ∈ evs → (subtract_chars R (keys.getD i 0)).2 = false)) :
    ∀ (sfx : List (Multiset Char)) (i : Nat), sfx = keys.drop i →
      ∀ remaining collected evs,
        traverse_scan (traverse_anagram_phrases keys fuel) sfx i remaining collected
          = some evs →
        (∀ j R, TravEv.enter j R ∈ evs → (subtract_chars R (keys.getD j 0)).2 = true) ∧
        (∀ j R, TravEv.failed j R ∈ evs → (subtract_chars R (keys.getD j 0)).2 = false) := by
  intro sfx
  induction sfx with
  | nil =>
    intro i hdrop remaining collected evs hscan
    have hevs : evs = [] := by simpa [traverse_scan] using hscan.symm
    subst hevs
    simp
  | cons k rest ihs =>
    intro i hdrop remaining collected evs hscan
    have hi : i < keys.length := by
      by_contra h
      push_neg at h
      rw [List.drop_eq_nil_iff.mpr (by omega)] at hdrop
      exact (List.cons_ne_nil _ _) hdrop
    rw [List.drop_eq_getElem_cons hi] at hdrop
    have hk_eq : k = keys.getD i 0 := by
      rw [getD_of_lt hi]
      exact (List.cons.injEq _ _ _ _ ▸ hdrop).1
    have hrest : rest = keys.drop (i + 1) :=
      (List.cons.injEq _ _ _ _ ▸ hdrop).2
    simp only [traverse_scan] at hscan
    by_cases hsub : (subtract_chars remaining k).2 = true
    · rw [if_pos hsub] at hscan
      rcases hinner : traverse_anagram_phrases keys fuel (subtract_chars remaining k).1
          i (collected ++ [i]) with _ | inner
      · rw [hinner] at hscan; cases hscan
      rw [hinner] at hscan
      rcases htail : traverse_scan (traverse_anagram_phrases keys fuel) rest (i + 1)
          remaining collected with _ | tail
      · rw [htail] at hscan; cases hscan
      rw [htail] at hscan
      have hevs : evs = TravEv.enter i remaining :: (inner ++ tail) := by
        simpa using hscan.symm
      subst hevs
      have hI := IH _ _ _ _ hinner
      have hT := ihs (i + 1) hrest remaining collected tail htail
      constructor
      · intro j R hmem
        rcases List.mem_cons.mp hmem with heq | hmem'
        · cases heq
          rwa [← hk_eq]
        · rcases List.mem_append.mp hmem' with h | h
          · exact hI.1 j R h
          · exact hT.1 j R h
      · intro j R hmem
        rcases List.mem_cons.mp hmem with heq | hmem'
        · cases heq
        · rcases List.mem_append.mp hmem' with h | h
          · exact hI.2 j R h
          · exact hT.2 j R h
    · rw [if_neg hsub] at hscan
      rcases htail : traverse_scan (traverse_anagram_phrases keys fuel) rest (i + 1)
          remaining collected with _ | tail
      · rw [htail] at hscan; cases hscan
      rw [htail] at hscan
      have hevs : evs = TravEv.failed i remaining :: tail := by
        simpa using hscan.symm
      subst hevs
      have hT := ihs (i + 1) hrest remaining collected tail htail
      constructor
      · intro j R hmem
        rcases List.mem_cons.mp hmem with heq | hmem'
        · cases heq
        · exact hT.1 j R hmem'
      · intro j R hmem
        rcases List.mem_cons.mp hmem with heq | hmem'
        · cases heq
          simp only [Bool.not_eq_true] at hsub
          rwa [← hk_eq]
        · exact hT.2 j R hmem'

/-- Event soundness for a full run. -/
theorem traverse_events (keys : List (Multiset Char)) :
    ∀ (fuel : Nat) (remaining : Multiset Char) (resume_index : Nat)
      (collected : List Nat) (evs : List TravEv),
      traverse_anagram_phrases keys fuel remaining resume_index collected = some evs →
      (∀ i R, TravEv.enter i R ∈ evs → (subtract_chars R (keys.getD i 0)).2 = true) ∧
      (∀ i R, TravEv.failed i R ∈ evs → (subtract_chars R (keys.getD i 0)).2 = false) := by
  intro fuel
  induction fuel with
  | zero => intro _ _ _ _ h; cases h
  | succ fuel ih =>
    intro remaining resume_index collected evs hrun
    simp only [traverse_anagram_phrases] at hrun
    by_cases h0 : remaining = 0
    · rw [if_pos h0] at hrun
      have hevs : evs = [TravEv.accept collected] := by simpa using hrun.symm
      subst hevs
      simp
    · rw [if_neg h0] at hrun
      exact traverse_scan_events keys fuel (fun r ri c e h => ih r ri c e h)
        (keys.drop resume_index) resume_index rfl remaining collected evs hrun

/-- C1 (amended): for every target multiset and ordered key list all of whose
key multisets are nonempty, and fuel beyond the target's letter count, the
composition search terminates; its event trace records an `enter` (recursion)
only for keys whose `subtract_chars` pre-check succeeded and a `failed`
(incomplete-metric bump, no recursion) exactly for keys whose pre-check
failed; and the accepted compositions are exactly the extensions of the
initial stack by a non-decreasing sequence of indices (repetition allowed,
scan resuming at the current index) whose keys' letters sum exactly to the
remaining target — each such composition accepted exactly once (soundness,
completeness, and no duplication). -/
theorem traverse_anagram_phrases_correct (keys : List (Multiset Char))
    (fuel : Nat) (target : Multiset Char) (resume_index : Nat) (collected : List Nat)
    (hk : ∀ m ∈ keys, m ≠ 0) (hfuel : Multiset.card target < fuel) :
    ∃ evs, traverse_anagram_phrases keys fuel target resume_index collected = some evs ∧
      (∀ i R, TravEv.enter i R ∈ evs → (subtract_chars R (keys.getD i 0)).2 = true) ∧
      (∀ i R, TravEv.failed i R ∈ evs → (subtract_chars R (keys.getD i 0)).2 = false) ∧
      (∀ ext, IsCompletion keys target resume_index ext →
          (accepts evs).count (collected ++ ext) = 1) ∧
      (∀ ys, (∀ ext, ys = collected ++ ext →
          ¬ IsCompletion keys target resume_index ext) →
          (accepts evs).count ys = 0) := by
  rcases Option.isSome_iff_exists.mp
      (traverse_isSome keys hk fuel target resume_index collected hfuel) with ⟨evs, hrun⟩
  have hev := traverse_events keys fuel target resume_index collected evs hrun
  have hct := traverse_count keys hk fuel target resume_index collected evs hrun
  exact ⟨evs, hrun, hev.1, hev.2, hct.1, hct.2⟩

/-- C1 witness: keys {"ab", "a", "b"} (as multisets), target "aab", run from
index 0 with the empty stack; hypotheses discharged by computation. -/
theorem traverse_anagram_phrases_correct_witness :
    ∃ evs, traverse_anagram_phrases [{'a', 'b'}, {'a'}, {'b'}] 4
        {'a', 'a', 'b'} 0 [] = some evs ∧
      (∀ i R, TravEv.enter i R ∈ evs →
          (subtract_chars R ([{'a', 'b'}, {'a'}, {'b'}].getD i 0)).2 = true) ∧
      (∀ i R, TravEv.failed i R ∈ evs →
          (subtract_chars R ([{'a', 'b'}, {'a'}, {'b'}].getD i 0)).2 = false) ∧
      (∀ ext, IsCompletion [{'a', 'b'}, {'a'}, {'b'}] {'a', 'a', 'b'} 0 ext →
          (accepts evs).count ([] ++ ext) = 1) ∧
      (∀ ys, (∀ ext, ys = [] ++ ext →
          ¬ IsCompletion [{'a', 'b'}, {'a'}, {'b'}] {'a', 'a', 'b'} 0 ext) →
          (accepts evs).count ys = 0) :=
  traverse_anagram_phrases_correct [{'a', 'b'}, {'a'}, {'b'}] 4 {'a', 'a', 'b'} 0 []
    (by decide) (by decide)

/-- C1 counterexample to the unrestricted claim: with an empty-multiset key
(the sorted-letter key of an empty dictionary word) and the empty target, the
composition [0] — one use of key 0, whose letters sum exactly to the target,
in non-decreasing index order — is never reached: the search accepts only the
empty composition, because an empty remaining multiset accepts and returns
without scanning.  (With a nonempty remaining multiset an empty key would
instead make the search recurse forever at the same state.) -/
theorem traverse_anagram_phrases_cex :
    traverse_anagram_phrases [(0 : Multiset Char)] 3 0 0 [] =
        some [TravEv.accept []] ∧
      IsCompletion [(0 : Multiset Char)] 0 0 [0] ∧
      (accepts [TravEv.accept []]).count ([] ++ [0]) = 0 := by
  refine ⟨by decide, ⟨List.chain'_singleton _, by simp, by simp⟩, by decide⟩


/-!
## C2 — `permutate_anagram_sorted` (main.rs:356-412)

Heap's-algorithm permutation generation over the collected key vector.  The
vector is modelled as a function from positions, `f : Nat → α` (holding the
vector's content at each index; a call with `size = s` only ever touches
indices below `s`, which stays below the vector's length).  `Vec::swap`
becomes `fswap`, `Vec::rotate_right(1)` on a vector of length `m` becomes
`frot m`.  Each `size == 1` call hands the whole current vector to the word
expander; the model records the vector snapshot (the ordering) instead, and
the top-level wrapper `permutate_top` renders snapshots over the vector's
length.  The restoration block (main.rs:405-411) runs exactly in the call
with `size == anagrams_collected.len()`, i.e. the top-level call — except
when the length is 1, where the early return at main.rs:366 skips it (the
vector was never touched).
-/

/-- `Vec::swap(i, j)` on a vector modelled as a function from positions. -/
def fswap {α : Type} (f : Nat → α) (i j : Nat) : Nat → α :=
  fun x => if x = i then f j else if x = j then f i else f x

/-- `Vec::rotate_right(1)` restricted to the first `m` positions (the vector
has length `m`): the last element moves to the front. -/
def frot {α : Type} (m : Nat) (f : Nat → α) : Nat → α :=
  fun x => if x < m then (if x = 0 then f (m - 1) else f (x - 1)) else f x

/-- The `for idx in 0..size-1` loop of main.rs:388-403: swap (positions
`(0, size-1)` for odd `size`, `(idx, size-1)` for even `size`), then recurse;
`next` is the recursive call at `size - 1`. -/
def heap_loop {α : Type} (next : (Nat → α) → List (Nat → α) × (Nat → α))
    (size : Nat) : List Nat → List (Nat → α) × (Nat → α) → List (Nat → α) × (Nat → α)
  | [], acc => acc
  | idx :: idxs, acc =>
    let g := if size % 2 = 1 then fswap acc.2 0 (size - 1) else fswap acc.2 idx (size - 1)
    let r := next g
    heap_loop next size idxs (acc.1 ++ r.1, r.2)

/-- `permutate_anagram_sorted` (main.rs:356-412) without the top-level
restoration block: `size == 1` emits the current vector (main.rs:366-377);
otherwise recurse at `size - 1`, then loop `size - 1` times swapping and
recursing.  Returns (emitted orderings in order, final vector state). -/
def permutate_anagram_sorted {α : Type} : Nat → (Nat → α) → List (Nat → α) × (Nat → α)
  | 0, f => ([], f)
  | 1, f => ([f], f)
  | size + 2, f =>
    heap_loop (permutate_anagram_sorted (size + 1)) (size + 2) (List.range (size + 1))
      (permutate_anagram_sorted (size + 1) f)

/-- The top-level call on a vector of length `m` (the call from
`traverse_anagram_phrases`, main.rs:320-328, has `size = collected.len()`):
the Heap traversal plus the restoration block of main.rs:405-411, which the
`size == 1` early return bypasses. -/
def permutate_top {α : Type} (m : Nat) (f : Nat → α) : List (Nat → α) × (Nat → α) :=
  if m = 1 then ([f], f)
  else
    let r := permutate_anagram_sorted m f
    (r.1, if m % 2 = 1 then fswap r.2 0 (m - 1) else frot m r.2)

/-- The ordering a snapshot denotes on a vector of length `m`. -/
def render {α : Type} (m : Nat) (f : Nat → α) : List α :=
  (List.range m).map f


/-- The positional transposition: `fswap` acts on the state by precomposition
with it. -/
def pswap (i j : Nat) : Nat → Nat :=
  fun x => if x = i then j else if x = j then i else x

theorem fswap_eq_pswap {α : Type} (f : Nat → α) (i j : Nat) :
    fswap f i j = fun x => f (pswap i j x) := by
  funext x
  unfold fswap pswap
  split_ifs <;> rfl

theorem fswap_postcomp {α : Type} (h : Nat → α) (π : Nat → Nat) (i j : Nat) :
    fswap (fun x => h (π x)) i j = fun x => h (fswap π i j x) := by
  funext x
  unfold fswap
  split_ifs <;> rfl

/-- Content-independence of the traversal: running it on any vector is
running it on the identity position vector and reading contents off at the
end.  (Every state transformation is a positional swap.) -/
theorem heap_loop_natural {α : Type} (h : Nat → α)
    (nextA : (Nat → α) → List (Nat → α) × (Nat → α))
    (nextN : (Nat → Nat) → List (Nat → Nat) × (Nat → Nat))
    (hnext : ∀ π : Nat → Nat,
      nextA (fun x => h (π x)) =
        ((nextN π).1.map (fun g => fun x => h (g x)), fun x => h ((nextN π).2 x)))
    (size : Nat) :
    ∀ (idxs : List Nat) (L : List (Nat → Nat)) (π : Nat → Nat),
      heap_loop nextA size idxs (L.map (fun g => fun x => h (g x)), fun x => h (π x)) =
        ((heap_loop nextN size idxs (L, π)).1.map (fun g => fun x => h (g x)),
         fun x => h ((heap_loop nextN size idxs (L, π)).2 x)) := by
  intro idxs
  induction idxs with
  | nil => intro L π; rfl
  | cons idx idxs ih =>
    intro L π
    simp only [heap_loop]
    by_cases hpar : size % 2 = 1
    · simp only [if_pos hpar, fswap_postcomp, hnext, ← List.map_append]
      exact ih (L ++ (nextN (fswap π 0 (size - 1))).1) ((nextN (fswap π 0 (size - 1))).2)
    · simp only [if_neg hpar, fswap_postcomp, hnext, ← List.map_append]
      exact ih (L ++ (nextN (fswap π idx (size - 1))).1)
        ((nextN (fswap π idx (size - 1))).2)

theorem permutate_natural :
    ∀ (n : Nat) {α : Type} (h : Nat → α),
      permutate_anagram_sorted n h =
        (((permutate_anagram_sorted n (fun i => i)).1).map (fun g => fun x => h (g x)),
         fun x => h ((permutate_anagram_sorted n (fun i => i)).2 x)) := by
  intro n
  induction n using Nat.strong_induction_on with
  | _ n ih =>
    match n with
    | 0 => intro α h; rfl
    | 1 => intro α h; rfl
    | (size + 2) =>
      intro α h
      have hnext : ∀ π : Nat → Nat,
          permutate_anagram_sorted (size + 1) (fun x => h (π x)) =
            ((permutate_anagram_sorted (size + 1) π).1.map (fun g => fun x => h (g x)),
             fun x => h ((permutate_anagram_sorted (size + 1) π).2 x)) := by
        intro π
        rw [ih (size + 1) (by omega) (fun x => h (π x)), ih (size + 1) (by omega) π]
        simp [List.map_map]
      have hfirst : permutate_anagram_sorted (size + 1) h =
          ((permutate_anagram_sorted (size + 1) (fun i : Nat => i)).1.map
              (fun g => fun x => h (g x)),
           fun x => h ((permutate_anagram_sorted (size + 1) (fun i : Nat => i)).2 x)) :=
        hnext (fun i => i)
      simp only [permutate_anagram_sorted]
      rw [hfirst]
      exact heap_loop_natural h (permutate_anagram_sorted (size + 1))
        (permutate_anagram_sorted (size + 1)) hnext (size + 2) (List.range (size + 1))
        (permutate_anagram_sorted (size + 1) (fun i : Nat => i)).1
        (permutate_anagram_sorted (size + 1) (fun i : Nat => i)).2

/-- Output count of the loop, given a fixed per-call output count. -/
theorem heap_loop_length {α : Type}
    (next : (Nat → α) → List (Nat → α) × (Nat → α)) (K : Nat)
    (hnext : ∀ g, (next g).1.length = K) (size : Nat) :
    ∀ (idxs : List Nat) (acc : List (Nat → α) × (Nat → α)),
      (heap_loop next size idxs acc).1.length = acc.1.length + idxs.length * K := by
  intro idxs
  induction idxs with
  | nil => intro acc; simp [heap_loop]
  | cons idx idxs ih =>
    intro acc
    simp only [heap_loop]
    rw [ih]
    simp only [List.length_append, hnext, List.length_cons]
    ring

/-- C2 count part: `permutate_anagram_sorted n` emits exactly `n!` orderings
(for `n ≥ 1`). -/
theorem permutate_length {α : Type} :
    ∀ (n : Nat) (f : Nat → α), 1 ≤ n →
      (permutate_anagram_sorted n f).1.length = Nat.factorial n := by
  intro n
  induction n using Nat.strong_induction_on with
  | _ n ih =>
    match n with
    | 0 => intro f h; omega
    | 1 => intro f _; simp [permutate_anagram_sorted, Nat.factorial]
    | (size + 2) =>
      intro f _
      simp only [permutate_anagram_sorted]
      rw [heap_loop_length (permutate_anagram_sorted (size + 1))
        (Nat.factorial (size + 1))
        (fun g => ih (size + 1) (by omega) g (by omega)) (size + 2)]
      rw [ih (size + 1) (by omega) f (by omega)]
      simp [List.length_range, Nat.factorial]
      ring

/-- A state function is a permutation of the first `m` positions: injective
and fixing every index at or beyond `m`. -/
def PermOn (m : Nat) (g : Nat → Nat) : Prop :=
  Function.Injective g ∧ ∀ i, m ≤ i → g i = i

theorem permOn_id (m : Nat) : PermOn m (fun i => i) :=
  ⟨fun _ _ h => h, fun _ _ => rfl⟩

theorem permOn_mono {m m' : Nat} (h : m ≤ m') {g : Nat → Nat} (hg : PermOn m g) :
    PermOn m' g :=
  ⟨hg.1, fun i hi => hg.2 i (le_trans h hi)⟩

theorem permOn_fswap {m : Nat} {g : Nat → Nat} (hg : PermOn m g) {a b : Nat}
    (ha : a < m) (hb : b < m) : PermOn m (fswap g a b) := by
  rw [fswap_eq_pswap]
  constructor
  · intro x y hxy
    have hps : Function.Injective (pswap a b) := by
      intro u v huv
      unfold pswap at huv
      split_ifs at huv <;> omega
    exact hps (hg.1 hxy)
  · intro i hi
    show g (pswap a b i) = i
    unfold pswap
    rw [if_neg (by omega), if_neg (by omega)]
    exact hg.2 i hi

/-- Every state reached by the loop is a permutation of the first `m`
positions, as are all emitted snapshots, provided the recursive calls
preserve this and all swap positions are below `m`. -/
theorem heap_loop_permOn {m : Nat}
    (next : (Nat → Nat) → List (Nat → Nat) × (Nat → Nat)) (size : Nat)
    (hsize : 1 ≤ size) (hm : size ≤ m)
    (hnext : ∀ π, PermOn m π →
      (∀ g ∈ (next π).1, PermOn m g) ∧ PermOn m (next π).2) :
    ∀ (idxs : List Nat), (∀ idx ∈ idxs, idx < size) →
      ∀ (acc : List (Nat → Nat) × (Nat → Nat)),
        (∀ g ∈ acc.1, PermOn m g) → PermOn m acc.2 →
        (∀ g ∈ (heap_loop next size idxs acc).1, PermOn m g) ∧
          PermOn m (heap_loop next size idxs acc).2 := by
  intro idxs
  induction idxs with
  | nil => intro _ acc h1 h2; exact ⟨h1, h2⟩
  | cons idx idxs ih =>
    intro hidx acc h1 h2
    simp only [heap_loop]
    have hidx' : idx < size := hidx idx (List.mem_cons_self _ _)
    have hswap : PermOn m (if size % 2 = 1 then fswap acc.2 0 (size - 1)
        else fswap acc.2 idx (size - 1)) := by
      split_ifs
      · exact permOn_fswap h2 (by omega) (by omega)
      · exact permOn_fswap h2 (by omega) (by omega)
    have hrec := hnext _ hswap
    refine ih (fun j hj => hidx j (List.mem_cons_of_mem _ hj)) _ ?_ hrec.2
    intro g hg
    rcases List.mem_append.mp hg with hg' | hg'
    · exact h1 g hg'
    · exact hrec.1 g hg'

/-- All snapshots and the final state of `permutate_anagram_sorted n`, run on
the identity position vector, are permutations of the first `m ≥ n`
positions. -/
theorem permutate_permOn :
    ∀ (n : Nat) (π : Nat → Nat) (m : Nat), n ≤ m → PermOn m π →
      (∀ g ∈ (permutate_anagram_sorted n π).1, PermOn m g) ∧
        PermOn m (permutate_anagram_sorted n π).2 := by
  intro n
  induction n using Nat.strong_induction_on with
  | _ n ih =>
    match n with
    | 0 =>
      intro π m _ hπ
      exact ⟨by simp [permutate_anagram_sorted], by simpa [permutate_anagram_sorted] using hπ⟩
    | 1 =>
      intro π m _ hπ
      constructor
      · intro g hg
        simp only [permutate_anagram_sorted, List.mem_singleton] at hg
        subst hg; exact hπ
      · simpa [permutate_anagram_sorted] using hπ
    | (size + 2) =>
      intro π m hm hπ
      simp only [permutate_anagram_sorted]
      have hfirst := ih (size + 1) (by omega) π m (by omega) hπ
      exact heap_loop_permOn (permutate_anagram_sorted (size + 1)) (size + 2)
        (by omega) hm
        (fun π' hπ' => ih (size + 1) (by omega) π' m (by omega) hπ')
        (List.range (size + 1)) (fun idx hidx => by
          have := List.mem_range.mp hidx; omega)
        (permutate_anagram_sorted (size + 1) π) hfirst.1 hfirst.2

/-- A permutation of the first `n` positions renders to a permutation of
`range n`. -/
theorem permOn_render_perm {n : Nat} {g : Nat → Nat} (h : PermOn n g) :
    (render n g).Perm (List.range n) := by
  have hmaps : ∀ i, i < n → g i < n := by
    intro i hi
    by_contra hge
    push_neg at hge
    have hfix : g (g i) = g i := h.2 (g i) hge
    have : g i = i := h.1 hfix
    omega
  have hnodup : (render n g).Nodup := by
    unfold render
    exact (List.nodup_range n).map_on (fun x hx y hy hxy => h.1 hxy)
  have hsub : render n g ⊆ List.range n := by
    intro x hx
    unfold render at hx
    rcases List.mem_map.mp hx with ⟨i, hi, rfl⟩
    exact List.mem_range.mpr (hmaps i (List.mem_range.mp hi))
  have hlen : (List.range n).length ≤ (render n g).length := by
    simp [render]
  exact (hnodup.subperm hsub).perm_of_length_le hlen

/-!
### The net permutation of the Heap traversal

`permutate_anagram_sorted n` leaves the vector permuted by a fixed positional
map.  For odd `n` it is the transposition of the first and last of the `n`
positions; for even `n` it is the explicit map `sigmaEven n` below — a
rotation only for `n ∈ {2, 4}`, which is why the `rotate_right(1)`
restoration at main.rs:409 stops restoring from `n = 6` on.  The formulas are
established by tracking the loop's intermediate states (`gammaEven`,
`gammaOdd`).
-/

/-- Net positional effect of the traversal at even `n`. -/
def sigmaEven (n : Nat) : Nat → Nat := fun i =>
  if n = 2 then pswap 0 1 i
  else if i = 0 then n - 3
  else if i = 1 then n - 2
  else if i ≤ n - 3 then i - 1
  else if i = n - 2 then n - 1
  else if i = n - 1 then 0
  else i

/-- Net positional effect of the traversal: transposition `(0, n-1)` for odd
`n`, `sigmaEven n` for even `n`. -/
def sigmaHeap (n : Nat) : Nat → Nat :=
  if n % 2 = 1 then pswap 0 (n - 1) else sigmaEven n

/-- Intermediate loop states for even `n ≥ 2`: the state after the initial
recursive call (`p = 0`) and after each of the `p` first loop iterations. -/
def gammaEven (n p : Nat) : Nat → Nat := fun i =>
  if p = 0 then pswap 0 (n - 2) i
  else if p = 1 then pswap (n - 2) (n - 1) i
  else if p ≤ n - 2 then
    (if i = 1 then n - 2
     else if 2 ≤ i ∧ i ≤ p - 1 then i - 1
     else if i = n - 1 then p - 1
     else if i = 0 then (if p % 2 = 0 then n - 1 else 0)
     else if i = n - 2 then (if p % 2 = 0 then 0 else n - 1)
     else i)
  else sigmaEven n i

/-- The one cycle the per-iteration position map of the odd-`n` loop
traverses, as a list indexed by `cyc n` (an involution on `[0, n)`):
`0, n-4, n-5, …, 1, n-3, n-2, n-1`. -/
def cyc (n : Nat) : Nat → Nat := fun j =>
  if j = 0 then 0 else if j ≤ n - 4 then n - 3 - j else j

/-- `p`-fold iterate of the odd-`n` loop's per-iteration position map:
advance `p` places along the cycle. -/
def gpow (n p : Nat) : Nat → Nat := fun i =>
  if i < n then cyc n ((cyc n i + p) % n) else i

/-- Intermediate loop states for odd `n ≥ 3`. -/
def gammaOdd (n p : Nat) : Nat → Nat := fun i =>
  sigmaEven (n - 1) (gpow n p i)

/-- Parity-uniform intermediate state after the initial call and `p` loop
iterations of `permutate_anagram_sorted n` on the identity vector. -/
def gammaHeap (n p : Nat) : Nat → Nat :=
  if n % 2 = 1 then gammaOdd n p else gammaEven n p

theorem heap_loop_append {α : Type}
    (next : (Nat → α) → List (Nat → α) × (Nat → α)) (size : Nat)
    (l1 l2 : List Nat) :
    ∀ acc, heap_loop next size (l1 ++ l2) acc =
      heap_loop next size l2 (heap_loop next size l1 acc) := by
  induction l1 with
  | nil => intro acc; rfl
  | cons idx idxs ih => intro acc; simp only [List.cons_append, heap_loop]; exact ih _

theorem heap_loop_snd_state {α : Type}
    (next : (Nat → α) → List (Nat → α) × (Nat → α)) (size : Nat) :
    ∀ (idxs : List Nat) (L1 L2 : List (Nat → α)) (π : Nat → α),
      (heap_loop next size idxs (L1, π)).2 = (heap_loop next size idxs (L2, π)).2 := by
  intro idxs
  induction idxs with
  | nil => intro L1 L2 π; rfl
  | cons idx idxs ih => intro L1 L2 π; simp only [heap_loop]; exact ih _ _ _

theorem heap_loop_fst_accum {α : Type}
    (next : (Nat → α) → List (Nat → α) × (Nat → α)) (size : Nat) :
    ∀ (idxs : List Nat) (acc : List (Nat → α) × (Nat → α)),
      (heap_loop next size idxs acc).1 =
        acc.1 ++ (heap_loop next size idxs ([], acc.2)).1 := by
  intro idxs
  induction idxs with
  | nil => intro acc; simp [heap_loop]
  | cons idx idxs ih =>
    intro acc
    simp only [heap_loop]
    rw [ih, ih]
    simp only [List.nil_append, List.append_assoc]
    congr 1
    exact (ih _).symm


theorem pswap_fst (i j : Nat) : pswap i j i = j := by
  unfold pswap; simp

theorem pswap_snd (i j : Nat) : pswap i j j = i := by
  unfold pswap; split_ifs <;> omega

theorem pswap_other {i j x : Nat} (h1 : x ≠ i) (h2 : x ≠ j) : pswap i j x = x := by
  unfold pswap; rw [if_neg h1, if_neg h2]

theorem sigmaEven_ge {m x : Nat} (h2 : 2 ≤ m) (hx : m ≤ x) : sigmaEven m x = x := by
  unfold sigmaEven pswap; split_ifs <;> omega

theorem gammaEven_ge {n p x : Nat} (h2 : 2 ≤ n) (hx : n ≤ x) : gammaEven n p x = x := by
  unfold gammaEven
  by_cases hp0 : p = 0
  · rw [if_pos hp0]; exact pswap_other (by omega) (by omega)
  rw [if_neg hp0]
  by_cases hp1 : p = 1
  · rw [if_pos hp1]; exact pswap_other (by omega) (by omega)
  rw [if_neg hp1]
  by_cases hpn : p ≤ n - 2
  · rw [if_pos hpn, if_neg (by omega), if_neg (by omega), if_neg (by omega),
      if_neg (by omega), if_neg (by omega)]
  · rw [if_neg hpn]; exact sigmaEven_ge h2 (by omega)

/-- The middle-pattern branch of `gammaEven`. -/
theorem gammaEven_pat {n p : Nat} (i : Nat) (hp2 : 2 ≤ p) (hpn : p ≤ n - 2) :
    gammaEven n p i =
      (if i = 1 then n - 2
       else if 2 ≤ i ∧ i ≤ p - 1 then i - 1
       else if i = n - 1 then p - 1
       else if i = 0 then (if p % 2 = 0 then n - 1 else 0)
       else if i = n - 2 then (if p % 2 = 0 then 0 else n - 1)
       else i) := by
  unfold gammaEven
  rw [if_neg (by omega), if_neg (by omega), if_pos hpn]

theorem gammaEven_zero (n : Nat) (i : Nat) : gammaEven n 0 i = pswap 0 (n - 2) i := rfl

theorem gammaEven_one (n : Nat) (i : Nat) : gammaEven n 1 i = pswap (n - 2) (n - 1) i := by
  unfold gammaEven
  rw [if_neg (by omega), if_pos rfl]

theorem gammaEven_last {n p : Nat} (i : Nat) (h3 : 3 ≤ n) (hp : n - 2 < p) :
    gammaEven n p i = sigmaEven n i := by
  unfold gammaEven
  rw [if_neg (by omega), if_neg (by omega), if_neg (by omega)]

theorem sigmaEven_at0 {n : Nat} (h3 : 3 ≤ n) : sigmaEven n 0 = n - 3 := by
  unfold sigmaEven
  rw [if_neg (by omega), if_pos rfl]

theorem sigmaEven_at1 {n : Nat} (h3 : 3 ≤ n) : sigmaEven n 1 = n - 2 := by
  unfold sigmaEven
  rw [if_neg (by omega), if_neg (by omega), if_pos rfl]

theorem sigmaEven_mid {n x : Nat} (h3 : 3 ≤ n) (hx2 : 2 ≤ x) (hx3 : x ≤ n - 3) :
    sigmaEven n x = x - 1 := by
  unfold sigmaEven
  rw [if_neg (by omega), if_neg (by omega), if_neg (by omega), if_pos hx3]

theorem sigmaEven_atn2 {n : Nat} (h4 : 4 ≤ n) : sigmaEven n (n - 2) = n - 1 := by
  unfold sigmaEven
  rw [if_neg (by omega), if_neg (by omega), if_neg (by omega), if_neg (by omega),
    if_pos rfl]

theorem sigmaEven_atn1 {n : Nat} (h4 : 4 ≤ n) : sigmaEven n (n - 1) = 0 := by
  unfold sigmaEven
  rw [if_neg (by omega), if_neg (by omega), if_neg (by omega), if_neg (by omega),
    if_neg (by omega), if_pos rfl]


theorem gpat_at0 {n p : Nat} (hp2 : 2 ≤ p) (hpn : p ≤ n - 2) (h4 : 4 ≤ n) :
    gammaEven n p 0 = if p % 2 = 0 then n - 1 else 0 := by
  rw [gammaEven_pat 0 hp2 hpn, if_neg (show (0:Nat) ≠ 1 by omega),
    if_neg (show ¬ (2 ≤ (0:Nat) ∧ (0:Nat) ≤ p - 1) by omega),
    if_neg (show (0:Nat) ≠ n - 1 by omega), if_pos rfl]

theorem gpat_at1 {n p : Nat} (hp2 : 2 ≤ p) (hpn : p ≤ n - 2) (h4 : 4 ≤ n) :
    gammaEven n p 1 = n - 2 := by
  rw [gammaEven_pat 1 hp2 hpn, if_pos rfl]

theorem gpat_mid {n p x : Nat} (hp2 : 2 ≤ p) (hpn : p ≤ n - 2) (h4 : 4 ≤ n)
    (hx : 2 ≤ x) (hx2 : x ≤ p - 1) : gammaEven n p x = x - 1 := by
  rw [gammaEven_pat x hp2 hpn, if_neg (show x ≠ 1 by omega), if_pos ⟨hx, hx2⟩]

theorem gpat_atn1 {n p : Nat} (hp2 : 2 ≤ p) (hpn : p ≤ n - 2) (h4 : 4 ≤ n) :
    gammaEven n p (n - 1) = p - 1 := by
  rw [gammaEven_pat (n - 1) hp2 hpn, if_neg (show n - 1 ≠ 1 by omega),
    if_neg (show ¬ (2 ≤ n - 1 ∧ n - 1 ≤ p - 1) by omega), if_pos rfl]

theorem gpat_atn2 {n p : Nat} (hp2 : 2 ≤ p) (hpn : p ≤ n - 2) (h4 : 4 ≤ n) :
    gammaEven n p (n - 2) = if p % 2 = 0 then 0 else n - 1 := by
  rw [gammaEven_pat (n - 2) hp2 hpn, if_neg (show n - 2 ≠ 1 by omega),
    if_neg (show ¬ (2 ≤ n - 2 ∧ n - 2 ≤ p - 1) by omega),
    if_neg (show n - 2 ≠ n - 1 by omega), if_neg (show n - 2 ≠ 0 by omega),
    if_pos rfl]

theorem gpat_fix {n p x : Nat} (hp2 : 2 ≤ p) (hpn : p ≤ n - 2) (h4 : 4 ≤ n)
    (hx : p ≤ x) (hx3 : x ≤ n - 3) : gammaEven n p x = x := by
  rw [gammaEven_pat x hp2 hpn, if_neg (show x ≠ 1 by omega),
    if_neg (show ¬ (2 ≤ x ∧ x ≤ p - 1) by omega),
    if_neg (show x ≠ n - 1 by omega), if_neg (show x ≠ 0 by omega),
    if_neg (show x ≠ n - 2 by omega)]

/-- One loop iteration of the even-`n ≥ 4` traversal advances the
intermediate state `gammaEven` by one: the iteration applies the inner
traversal's net effect `pswap 0 (n-2)` and then the swap `(p, n-1)`. -/
theorem gammaEven_step {n p : Nat} (hn : n % 2 = 0) (h4 : 4 ≤ n) (hp : p ≤ n - 2) :
    ∀ x, gammaEven n (p + 1) x = gammaEven n p (pswap p (n - 1) (pswap 0 (n - 2) x)) := by
  intro x
  by_cases hxn : n ≤ x
  · rw [pswap_other (show x ≠ 0 by omega) (show x ≠ n - 2 by omega),
      pswap_other (show x ≠ p by omega) (show x ≠ n - 1 by omega),
      gammaEven_ge (by omega) hxn, gammaEven_ge (by omega) hxn]
  push_neg at hxn
  by_cases hp0 : p = 0
  · subst hp0
    rw [gammaEven_one n x, gammaEven_zero]
    by_cases hx0 : x = 0
    · subst hx0
      rw [pswap_fst 0 (n - 2),
        pswap_other (show n - 2 ≠ 0 by omega) (show n - 2 ≠ n - 1 by omega),
        pswap_snd 0 (n - 2),
        pswap_other (show (0:Nat) ≠ n - 2 by omega) (show (0:Nat) ≠ n - 1 by omega)]
    by_cases hxn2 : x = n - 2
    · subst hxn2
      rw [pswap_fst (n - 2) (n - 1), pswap_snd 0 (n - 2), pswap_fst 0 (n - 1),
        pswap_other (show n - 1 ≠ 0 by omega) (show n - 1 ≠ n - 2 by omega)]
    by_cases hxn1 : x = n - 1
    · subst hxn1
      rw [pswap_snd (n - 2) (n - 1),
        pswap_other (show n - 1 ≠ 0 by omega) (show n - 1 ≠ n - 2 by omega),
        pswap_snd 0 (n - 1), pswap_fst 0 (n - 2)]
    · rw [pswap_other (show x ≠ n - 2 from hxn2) (show x ≠ n - 1 from hxn1),
        pswap_other hx0 hxn2, pswap_other hx0 hxn1, pswap_other hx0 hxn2]
  by_cases hp1 : p = 1
  · subst hp1
    by_cases hx0 : x = 0
    · subst hx0
      rw [gpat_at0 (by omega) (by omega) h4, if_pos (by omega),
        pswap_fst 0 (n - 2),
        pswap_other (show n - 2 ≠ 1 by omega) (show n - 2 ≠ n - 1 by omega),
        gammaEven_one n (n - 2), pswap_fst (n - 2) (n - 1)]
    by_cases hx1 : x = 1
    · subst hx1
      rw [gpat_at1 (by omega) (by omega) h4,
        pswap_other (show (1:Nat) ≠ 0 by omega) (show (1:Nat) ≠ n - 2 by omega),
        pswap_fst 1 (n - 1), gammaEven_one n (n - 1), pswap_snd (n - 2) (n - 1)]
    by_cases hxn2 : x = n - 2
    · subst hxn2
      rw [gpat_atn2 (by omega) (by omega) h4, if_pos (by omega), pswap_snd 0 (n - 2),
        pswap_other (show (0:Nat) ≠ 1 by omega) (show (0:Nat) ≠ n - 1 by omega),
        gammaEven_one n 0,
        pswap_other (show (0:Nat) ≠ n - 2 by omega) (show (0:Nat) ≠ n - 1 by omega)]
    by_cases hxn1 : x = n - 1
    · subst hxn1
      rw [gpat_atn1 (by omega) (by omega) h4,
        pswap_other (show n - 1 ≠ 0 by omega) (show n - 1 ≠ n - 2 by omega),
        pswap_snd 1 (n - 1), gammaEven_one n 1,
        pswap_other (show (1:Nat) ≠ n - 2 by omega) (show (1:Nat) ≠ n - 1 by omega)]
    · rw [gpat_fix (by omega) (by omega) h4 (by omega) (by omega),
        pswap_other hx0 hxn2, pswap_other hx1 hxn1, gammaEven_one n x,
        pswap_other hxn2 hxn1]
  by_cases hpl : p ≤ n - 3
  · have hp2 : 2 ≤ p := by omega
    by_cases hx0 : x = 0
    · subst hx0
      rw [gpat_at0 (by omega) (by omega) h4, pswap_fst 0 (n - 2),
        pswap_other (show n - 2 ≠ p by omega) (show n - 2 ≠ n - 1 by omega),
        gpat_atn2 hp2 hp h4]
      by_cases hpe : p % 2 = 0
      · rw [if_neg (show ¬ (p + 1) % 2 = 0 by omega), if_pos hpe]
      · rw [if_pos (show (p + 1) % 2 = 0 by omega), if_neg hpe]
    by_cases hx1 : x = 1
    · subst hx1
      rw [gpat_at1 (by omega) (by omega) h4,
        pswap_other (show (1:Nat) ≠ 0 by omega) (show (1:Nat) ≠ n - 2 by omega),
        pswap_other (show (1:Nat) ≠ p by omega) (show (1:Nat) ≠ n - 1 by omega),
        gpat_at1 hp2 hp h4]
    by_cases hmid : 2 ≤ x ∧ x ≤ p - 1
    · rw [gpat_mid (by omega) (by omega) h4 hmid.1 (by omega),
        pswap_other hx0 (show x ≠ n - 2 by omega),
        pswap_other (show x ≠ p by omega) (show x ≠ n - 1 by omega),
        gpat_mid hp2 hp h4 hmid.1 hmid.2]
    by_cases hxp : x = p
    · subst hxp
      rw [gpat_mid (by omega) (by omega) h4 (by omega) (by omega),
        pswap_other hx0 (show x ≠ n - 2 by omega), pswap_fst x (n - 1),
        gpat_atn1 hp2 hp h4]
    by_cases hxn2 : x = n - 2
    · subst hxn2
      rw [gpat_atn2 (by omega) (by omega) h4, pswap_snd 0 (n - 2),
        pswap_other (show (0:Nat) ≠ p by omega) (show (0:Nat) ≠ n - 1 by omega),
        gpat_at0 hp2 hp h4]
      by_cases hpe : p % 2 = 0
      · rw [if_neg (show ¬ (p + 1) % 2 = 0 by omega), if_pos hpe]
      · rw [if_pos (show (p + 1) % 2 = 0 by omega), if_neg hpe]
    by_cases hxn1 : x = n - 1
    · subst hxn1
      rw [gpat_atn1 (by omega) (by omega) h4,
        pswap_other (show n - 1 ≠ 0 by omega) (show n - 1 ≠ n - 2 by omega),
        pswap_snd p (n - 1), gpat_fix hp2 hp h4 (le_refl p) (by omega)]
      omega
    · rw [gpat_fix (by omega) (by omega) h4 (by omega) (by omega),
        pswap_other hx0 hxn2, pswap_other (show x ≠ p by omega) hxn1,
        gpat_fix hp2 hp h4 (by omega) (by omega)]
  · have hpn2 : p = n - 2 := by omega
    subst hpn2
    have hL : ∀ y, gammaEven n (n - 2 + 1) y = sigmaEven n y := fun y =>
      gammaEven_last y (by omega) (by omega)
    by_cases hx0 : x = 0
    · subst hx0
      rw [hL 0, sigmaEven_at0 (by omega), pswap_fst 0 (n - 2), pswap_fst (n - 2) (n - 1),
        gpat_atn1 (by omega) (by omega) h4]
      omega
    by_cases hx1 : x = 1
    · subst hx1
      rw [hL 1, sigmaEven_at1 (by omega),
        pswap_other (show (1:Nat) ≠ 0 by omega) (show (1:Nat) ≠ n - 2 by omega),
        pswap_other (show (1:Nat) ≠ n - 2 by omega) (show (1:Nat) ≠ n - 1 by omega),
        gpat_at1 (by omega) (by omega) h4]
    by_cases hmid : 2 ≤ x ∧ x ≤ n - 3
    · rw [hL x, sigmaEven_mid (by omega) hmid.1 hmid.2,
        pswap_other hx0 (show x ≠ n - 2 by omega),
        pswap_other (show x ≠ n - 2 by omega) (show x ≠ n - 1 by omega),
        gpat_mid (by omega) (by omega) h4 hmid.1 (by omega)]
    by_cases hxn2 : x = n - 2
    · subst hxn2
      rw [hL (n - 2), sigmaEven_atn2 (by omega), pswap_snd 0 (n - 2),
        pswap_other (show (0:Nat) ≠ n - 2 by omega) (show (0:Nat) ≠ n - 1 by omega),
        gpat_at0 (by omega) (by omega) h4, if_pos (by omega)]
    · have hxn1 : x = n - 1 := by omega
      subst hxn1
      rw [hL (n - 1), sigmaEven_atn1 (by omega),
        pswap_other (show n - 1 ≠ 0 by omega) (show n - 1 ≠ n - 2 by omega),
        pswap_snd (n - 2) (n - 1), gpat_atn2 (by omega) (by omega) h4,
        if_pos (by omega)]

theorem pswap_invol (i j x : Nat) : pswap i j (pswap i j x) = x := by
  unfold pswap; split_ifs <;> omega

theorem pswap_permOn {m i j : Nat} (hi : i < m) (hj : j < m) : PermOn m (pswap i j) := by
  constructor
  · intro x y hxy
    unfold pswap at hxy
    split_ifs at hxy <;> omega
  · intro x hx
    exact pswap_other (show x ≠ i by omega) (show x ≠ j by omega)

theorem sigmaEven_lt {m x : Nat} (h2 : 2 ≤ m) (hx : x < m) : sigmaEven m x < m := by
  unfold sigmaEven pswap; split_ifs <;> omega

theorem sigmaEven_inj {m x y : Nat} (h2 : 2 ≤ m) (hm : m % 2 = 0)
    (hx : x < m) (hy : y < m) (h : sigmaEven m x = sigmaEven m y) : x = y := by
  unfold sigmaEven pswap at h; split_ifs at h <;> omega

theorem sigmaHeap_ge {n x : Nat} (h1 : 1 ≤ n) (hx : n ≤ x) : sigmaHeap n x = x := by
  unfold sigmaHeap
  split_ifs with hpar
  · exact pswap_other (show x ≠ 0 by omega) (show x ≠ n - 1 by omega)
  · exact sigmaEven_ge (by omega) (by omega)

theorem gammaOdd_ge {n p x : Nat} (h3 : 3 ≤ n) (hx : n ≤ x) : gammaOdd n p x = x := by
  unfold gammaOdd gpow
  rw [if_neg (show ¬ x < n by omega)]
  exact sigmaEven_ge (by omega) (by omega)

theorem cyc_lt {n k : Nat} (h1 : 1 ≤ n) (hk : k < n) : cyc n k < n := by
  unfold cyc; split_ifs <;> omega

theorem cyc_lt_pred {n k : Nat} (h3 : 3 ≤ n) (hk : k ≤ n - 2) : cyc n k < n - 1 := by
  unfold cyc; split_ifs <;> omega

theorem cyc_invol {n k : Nat} (hk : k < n) : cyc n (cyc n k) = k := by
  unfold cyc; split_ifs <;> omega

theorem gpow_lt {n p x : Nat} (h1 : 1 ≤ n) (hx : x < n) : gpow n p x < n := by
  unfold gpow
  rw [if_pos hx]
  exact cyc_lt h1 (Nat.mod_lt _ (by omega))

theorem gpow_zero {n x : Nat} (h1 : 1 ≤ n) (hx : x < n) : gpow n 0 x = x := by
  unfold gpow
  rw [if_pos hx, Nat.add_zero, Nat.mod_eq_of_lt (cyc_lt h1 hx), cyc_invol hx]

theorem gpow_add {n a b x : Nat} (h1 : 1 ≤ n) (hx : x < n) :
    gpow n a (gpow n b x) = gpow n (b + a) x := by
  unfold gpow
  rw [if_pos hx]
  rw [if_pos (show cyc n ((cyc n x + b) % n) < n from cyc_lt h1 (Nat.mod_lt _ (by omega)))]
  rw [cyc_invol (Nat.mod_lt _ (show 0 < n by omega)), Nat.mod_add_mod, Nat.add_assoc,
    if_pos hx]

theorem gpow_full {n x : Nat} (h1 : 1 ≤ n) (hx : x < n) : gpow n n x = x := by
  unfold gpow
  rw [if_pos hx, Nat.add_mod_right, Nat.mod_eq_of_lt (cyc_lt h1 hx), cyc_invol hx]

/-- One iteration of the odd-`n` loop advances the position one place along
the cycle `cyc`: the inner traversal's net `sigmaEven (n-1)` followed by the
swap `(0, n-1)` acts as `gpow n 1` on `[0, n)`. -/
theorem g_step {n x : Nat} (hn : n % 2 = 1) (h3 : 3 ≤ n) (hx : x < n) :
    pswap 0 (n - 1) (sigmaEven (n - 1) x) = gpow n 1 x := by
  by_cases hn3 : n = 3
  · subst hn3
    interval_cases x <;> decide
  have h5 : 5 ≤ n := by omega
  have hcy : ∀ k : Nat, k < n → gpow n 1 k = cyc n ((cyc n k + 1) % n) := by
    intro k hk
    unfold gpow
    rw [if_pos hk]
  rw [hcy x hx]
  by_cases hx0 : x = 0
  · subst hx0
    rw [sigmaEven_at0 (by omega),
      pswap_other (show n - 1 - 3 ≠ 0 by omega) (show n - 1 - 3 ≠ n - 1 by omega)]
    unfold cyc
    rw [if_pos rfl, Nat.zero_add, Nat.mod_eq_of_lt (show 1 < n by omega),
      if_neg (show (1:Nat) ≠ 0 by omega), if_pos (show 1 ≤ n - 4 by omega)]
    omega
  by_cases hx1 : x = 1
  · subst hx1
    rw [sigmaEven_at1 (by omega),
      pswap_other (show n - 1 - 2 ≠ 0 by omega) (show n - 1 - 2 ≠ n - 1 by omega)]
    unfold cyc
    rw [if_neg (show (1:Nat) ≠ 0 by omega), if_pos (show 1 ≤ n - 4 by omega),
      Nat.mod_eq_of_lt (show n - 3 - 1 + 1 < n by omega)]
    rw [if_neg (show n - 3 - 1 + 1 ≠ 0 by omega),
      if_neg (show ¬ n - 3 - 1 + 1 ≤ n - 4 by omega)]
    omega
  by_cases hxm : 2 ≤ x ∧ x ≤ n - 4
  · rw [sigmaEven_mid (by omega) hxm.1 (by omega),
      pswap_other (show x - 1 ≠ 0 by omega) (show x - 1 ≠ n - 1 by omega)]
    unfold cyc
    rw [if_neg (show x ≠ 0 by omega), if_pos hxm.2,
      Nat.mod_eq_of_lt (show n - 3 - x + 1 < n by omega)]
    rw [if_neg (show n - 3 - x + 1 ≠ 0 by omega),
      if_pos (show n - 3 - x + 1 ≤ n - 4 by omega)]
    omega
  by_cases hx3 : x = n - 3
  · subst hx3
    have : sigmaEven (n - 1) (n - 3) = n - 2 := by
      have := sigmaEven_atn2 (show 4 ≤ n - 1 by omega)
      rw [show n - 1 - 2 = n - 3 by omega, show n - 1 - 1 = n - 2 by omega] at this
      exact this
    rw [this, pswap_other (show n - 2 ≠ 0 by omega) (show n - 2 ≠ n - 1 by omega)]
    unfold cyc
    rw [if_neg (show n - 3 ≠ 0 by omega), if_neg (show ¬ n - 3 ≤ n - 4 by omega),
      Nat.mod_eq_of_lt (show n - 3 + 1 < n by omega)]
    rw [if_neg (show n - 3 + 1 ≠ 0 by omega),
      if_neg (show ¬ n - 3 + 1 ≤ n - 4 by omega)]
    omega
  by_cases hx4 : x = n - 2
  · subst hx4
    have : sigmaEven (n - 1) (n - 2) = 0 := by
      have := sigmaEven_atn1 (show 4 ≤ n - 1 by omega)
      rw [show n - 1 - 1 = n - 2 by omega] at this
      exact this
    rw [this, pswap_fst 0 (n - 1)]
    unfold cyc
    rw [if_neg (show n - 2 ≠ 0 by omega), if_neg (show ¬ n - 2 ≤ n - 4 by omega),
      Nat.mod_eq_of_lt (show n - 2 + 1 < n by omega)]
    rw [if_neg (show n - 2 + 1 ≠ 0 by omega),
      if_neg (show ¬ n - 2 + 1 ≤ n - 4 by omega)]
    omega
  · have hx5 : x = n - 1 := by omega
    subst hx5
    rw [sigmaEven_ge (show 2 ≤ n - 1 by omega) (by omega), pswap_snd 0 (n - 1)]
    unfold cyc
    rw [if_neg (show n - 1 ≠ 0 by omega), if_neg (show ¬ n - 1 ≤ n - 4 by omega),
      show n - 1 + 1 = n by omega, Nat.mod_self, if_pos rfl]

/-- One loop iteration of the odd-`n ≥ 3` traversal advances the intermediate
state `gammaOdd` by one. -/
theorem gammaOdd_step {n p : Nat} (hn : n % 2 = 1) (h3 : 3 ≤ n) :
    ∀ x, gammaOdd n (p + 1) x = gammaOdd n p (pswap 0 (n - 1) (sigmaEven (n - 1) x)) := by
  intro x
  by_cases hx : x < n
  · rw [g_step hn h3 hx]
    unfold gammaOdd
    rw [gpow_add (by omega) hx, Nat.add_comm 1 p]
  · push_neg at hx
    rw [sigmaEven_ge (show 2 ≤ n - 1 by omega) (by omega),
      pswap_other (show x ≠ 0 by omega) (show x ≠ n - 1 by omega),
      gammaOdd_ge h3 hx, gammaOdd_ge h3 hx]

/-- After all `n - 1` iterations the odd-`n` loop's state is the transposition
of the first and last positions. -/
theorem gammaOdd_last {n : Nat} (hn : n % 2 = 1) (h3 : 3 ≤ n) :
    ∀ x, gammaOdd n (n - 1) x = pswap 0 (n - 1) x := by
  intro x
  by_cases hx : x < n
  · have hy : gpow n (n - 1) x < n := gpow_lt (by omega) hx
    have hg : pswap 0 (n - 1) (sigmaEven (n - 1) (gpow n (n - 1) x)) =
        gpow n 1 (gpow n (n - 1) x) := g_step hn h3 hy
    rw [gpow_add (by omega) hx, show n - 1 + 1 = n by omega, gpow_full (by omega) hx] at hg
    unfold gammaOdd
    have := congrArg (pswap 0 (n - 1)) hg
    rw [pswap_invol] at this
    rw [this]
  · push_neg at hx
    rw [gammaOdd_ge h3 hx,
      pswap_other (show x ≠ 0 by omega) (show x ≠ n - 1 by omega)]

/-- Value left at position `n-1` by the block `j` header state, even `n`:
the sequence `n-1, n-2, 1, 2, 3, …, n-3, 0`. -/
def vEven (n j : Nat) : Nat :=
  if j = 0 then n - 1
  else if j = 1 then n - 2
  else if j = 2 then 1
  else if j ≤ n - 2 then j - 1
  else 0

/-- Value left at position `n-1` by the block `j` header state, odd `n`. -/
def vOdd (n j : Nat) : Nat :=
  if j = 0 then n - 1 else sigmaEven (n - 1) (cyc n (j - 1))

/-- Parity-uniform last-position value of the block `j` header state. -/
def vHeap (n j : Nat) : Nat :=
  if n % 2 = 1 then vOdd n j else vEven n j

theorem vHeap_zero (n : Nat) : vHeap n 0 = n - 1 := by
  unfold vHeap vOdd vEven
  split_ifs <;> omega

theorem vEven_step {n p : Nat} (hn : n % 2 = 0) (h4 : 4 ≤ n) (hp : p ≤ n - 2) :
    gammaEven n p p = vEven n (p + 1) := by
  unfold vEven
  rw [if_neg (show p + 1 ≠ 0 by omega)]
  by_cases hp0 : p = 0
  · subst hp0
    rw [if_pos rfl, gammaEven_zero, pswap_fst 0 (n - 2)]
  rw [if_neg (show p + 1 ≠ 1 by omega)]
  by_cases hp1 : p = 1
  · subst hp1
    rw [if_pos rfl, gammaEven_one,
      pswap_other (show (1:Nat) ≠ n - 2 by omega) (show (1:Nat) ≠ n - 1 by omega)]
  rw [if_neg (show p + 1 ≠ 2 by omega)]
  by_cases hpl : p ≤ n - 3
  · rw [if_pos (show p + 1 ≤ n - 2 by omega),
      gpat_fix (by omega) hp h4 (le_refl p) hpl]
    omega
  · have hpn : p = n - 2 := by omega
    subst hpn
    rw [if_neg (show ¬ n - 2 + 1 ≤ n - 2 by omega), gpat_atn2 (by omega) hp h4,
      if_pos (show (n - 2) % 2 = 0 by omega)]

theorem vOdd_step {n p : Nat} (hn : n % 2 = 1) (h3 : 3 ≤ n) (hp : p ≤ n - 2) :
    gammaOdd n p 0 = vOdd n (p + 1) := by
  unfold gammaOdd vOdd
  rw [if_neg (show p + 1 ≠ 0 by omega)]
  have h0 : gpow n p 0 = cyc n p := by
    unfold gpow
    rw [if_pos (show (0:Nat) < n by omega)]
    have hc0 : cyc n 0 = 0 := by unfold cyc; rw [if_pos rfl]
    rw [hc0, Nat.zero_add, Nat.mod_eq_of_lt (show p < n by omega)]
  rw [h0, show p + 1 - 1 = p by omega]

theorem vEven_inj {n j1 j2 : Nat} (hn : n % 2 = 0) (h4 : 4 ≤ n)
    (hj1 : j1 ≤ n - 1) (hj2 : j2 ≤ n - 1) (h : vEven n j1 = vEven n j2) : j1 = j2 := by
  unfold vEven at h
  split_ifs at h <;> omega

theorem vOdd_inj {n j1 j2 : Nat} (hn : n % 2 = 1) (h3 : 3 ≤ n)
    (hj1 : j1 ≤ n - 1) (hj2 : j2 ≤ n - 1) (h : vOdd n j1 = vOdd n j2) : j1 = j2 := by
  unfold vOdd at h
  have hlt : ∀ j : Nat, j ≤ n - 1 → j ≠ 0 →
      sigmaEven (n - 1) (cyc n (j - 1)) < n - 1 := by
    intro j hj hj0
    exact sigmaEven_lt (by omega) (cyc_lt_pred h3 (by omega))
  by_cases h1 : j1 = 0
  · by_cases h2 : j2 = 0
    · omega
    · rw [if_pos h1, if_neg h2] at h
      have := hlt j2 hj2 h2
      omega
  · by_cases h2 : j2 = 0
    · rw [if_neg h1, if_pos h2] at h
      have := hlt j1 hj1 h1
      omega
    · rw [if_neg h1, if_neg h2] at h
      have hc1 : cyc n (j1 - 1) < n - 1 := cyc_lt_pred h3 (by omega)
      have hc2 : cyc n (j2 - 1) < n - 1 := cyc_lt_pred h3 (by omega)
      have hcc := sigmaEven_inj (show 2 ≤ n - 1 by omega) (show (n - 1) % 2 = 0 by omega)
        hc1 hc2 h
      have := congrArg (cyc n) hcc
      rw [cyc_invol (show j1 - 1 < n by omega), cyc_invol (show j2 - 1 < n by omega)] at this
      omega

theorem vHeap_inj {n j1 j2 : Nat} (h3 : 3 ≤ n)
    (hj1 : j1 ≤ n - 1) (hj2 : j2 ≤ n - 1) (h : vHeap n j1 = vHeap n j2) : j1 = j2 := by
  unfold vHeap at h
  by_cases hpar : n % 2 = 1
  · rw [if_pos hpar, if_pos hpar] at h
    exact vOdd_inj hpar h3 hj1 hj2 h
  · rw [if_neg hpar, if_neg hpar] at h
    exact vEven_inj (by omega) (by omega) hj1 hj2 h

theorem gammaHeap_zero {n : Nat} (h3 : 3 ≤ n) :
    ∀ x, gammaHeap n 0 x = sigmaHeap (n - 1) x := by
  intro x
  unfold gammaHeap sigmaHeap
  by_cases hpar : n % 2 = 1
  · rw [if_pos hpar, if_neg (show ¬ (n - 1) % 2 = 1 by omega)]
    unfold gammaOdd
    by_cases hx : x < n
    · rw [gpow_zero (by omega) hx]
    · push_neg at hx
      unfold gpow
      rw [if_neg (show ¬ x < n by omega)]
  · rw [if_neg hpar, if_pos (show (n - 1) % 2 = 1 by omega), gammaEven_zero,
      show n - 1 - 1 = n - 2 by omega]

theorem gammaHeap_step {n p : Nat} (h3 : 3 ≤ n) (hp : p ≤ n - 2) :
    ∀ x, gammaHeap n (p + 1) x =
      gammaHeap n p (pswap (if n % 2 = 1 then 0 else p) (n - 1) (sigmaHeap (n - 1) x)) := by
  intro x
  unfold gammaHeap sigmaHeap
  by_cases hpar : n % 2 = 1
  · rw [if_pos hpar, if_pos hpar, if_pos hpar, if_neg (show ¬ (n - 1) % 2 = 1 by omega)]
    exact gammaOdd_step hpar h3 x
  · rw [if_neg hpar, if_neg hpar, if_neg hpar, if_pos (show (n - 1) % 2 = 1 by omega),
      show n - 1 - 1 = n - 2 by omega]
    exact gammaEven_step (by omega) (by omega) hp x

theorem gammaHeap_last {n : Nat} (h3 : 3 ≤ n) :
    ∀ x, gammaHeap n (n - 1) x = sigmaHeap n x := by
  intro x
  unfold gammaHeap sigmaHeap
  by_cases hpar : n % 2 = 1
  · rw [if_pos hpar, if_pos hpar]
    exact gammaOdd_last hpar h3 x
  · rw [if_neg hpar, if_neg hpar]
    exact gammaEven_last x h3 (by omega)

/-- Two position snapshots differ somewhere below `n`. -/
def DiffBelow (n : Nat) (q1 q2 : Nat → Nat) : Prop :=
  ∃ x, x < n ∧ q1 x ≠ q2 x

/-- Loop invariant of the outer Heap loop at `n ≥ 3` (given the inner
traversal of the `n-1` prefix already characterised): after the initial
recursive call and `p` loop iterations, the vector state is `gammaHeap n p`,
it is a permutation of the first `n` positions, the snapshots emitted so far
are pairwise distinct below `n`, and every emitted snapshot carries one of
the `p+1` block values `vHeap n j` at position `n-1`. -/
theorem heap_loop_invariant (n : Nat) (h3 : 3 ≤ n)
    (ihState : ∀ x, (permutate_anagram_sorted (n - 1) (fun i => i)).2 x = sigmaHeap (n - 1) x)
    (ihPair : (permutate_anagram_sorted (n - 1) (fun i => i)).1.Pairwise (DiffBelow (n - 1))) :
    ∀ p, p ≤ n - 1 →
      (∀ x, (heap_loop (permutate_anagram_sorted (n - 1)) n (List.range p)
          (permutate_anagram_sorted (n - 1) (fun i => i))).2 x = gammaHeap n p x) ∧
      PermOn n (heap_loop (permutate_anagram_sorted (n - 1)) n (List.range p)
          (permutate_anagram_sorted (n - 1) (fun i => i))).2 ∧
      (heap_loop (permutate_anagram_sorted (n - 1)) n (List.range p)
          (permutate_anagram_sorted (n - 1) (fun i => i))).1.Pairwise (DiffBelow n) ∧
      ∀ q ∈ (heap_loop (permutate_anagram_sorted (n - 1)) n (List.range p)
          (permutate_anagram_sorted (n - 1) (fun i => i))).1,
        ∃ j, j ≤ p ∧ q (n - 1) = vHeap n j := by
  have hfix : ∀ q ∈ (permutate_anagram_sorted (n - 1) (fun i => i)).1, q (n - 1) = n - 1 :=
    fun q hq => ((permutate_permOn (n - 1) (fun i => i) (n - 1) le_rfl (permOn_id _)).1
      q hq).2 (n - 1) le_rfl
  intro p
  induction p with
  | zero =>
    intro _
    simp only [List.range_zero, heap_loop]
    refine ⟨?_, ?_, ?_, ?_⟩
    · intro x
      rw [ihState x, gammaHeap_zero h3 x]
    · exact (permutate_permOn (n - 1) (fun i => i) n (by omega) (permOn_id n)).2
    · refine ihPair.imp ?_
      intro q1 q2 hd
      obtain ⟨x, hx, hne⟩ := hd
      exact ⟨x, by omega, hne⟩
    · intro q hq
      exact ⟨0, le_rfl, by rw [vHeap_zero]; exact hfix q hq⟩
  | succ p ih =>
    intro hp1
    have hp : p ≤ n - 2 := by omega
    obtain ⟨iState, iPerm, iPair, iV⟩ := ih (by omega)
    rw [List.range_succ, heap_loop_append]
    generalize hA : heap_loop (permutate_anagram_sorted (n - 1)) n (List.range p)
        (permutate_anagram_sorted (n - 1) (fun i => i)) = A at iState iPerm iPair iV ⊢
    have hgeq : (if n % 2 = 1 then fswap A.2 0 (n - 1) else fswap A.2 p (n - 1)) =
        fswap A.2 (if n % 2 = 1 then 0 else p) (n - 1) := by
      by_cases hpar : n % 2 = 1
      · rw [if_pos hpar, if_pos hpar]
      · rw [if_neg hpar, if_neg hpar]
    have haLt : (if n % 2 = 1 then 0 else p) < n - 1 := by
      split_ifs <;> omega
    have hgP : PermOn n (fswap A.2 (if n % 2 = 1 then 0 else p) (n - 1)) :=
      permOn_fswap iPerm (by omega) (by omega)
    have hsnd : ∀ y, (permutate_anagram_sorted (n - 1)
        (fswap A.2 (if n % 2 = 1 then 0 else p) (n - 1))).2 y =
        fswap A.2 (if n % 2 = 1 then 0 else p) (n - 1)
          ((permutate_anagram_sorted (n - 1) (fun i => i)).2 y) := by
      intro y
      rw [permutate_natural (n - 1) (fswap A.2 (if n % 2 = 1 then 0 else p) (n - 1))]
    have hfst : (permutate_anagram_sorted (n - 1)
        (fswap A.2 (if n % 2 = 1 then 0 else p) (n - 1))).1 =
        (permutate_anagram_sorted (n - 1) (fun i => i)).1.map
          (fun q => fun x => fswap A.2 (if n % 2 = 1 then 0 else p) (n - 1) (q x)) := by
      rw [permutate_natural (n - 1) (fswap A.2 (if n % 2 = 1 then 0 else p) (n - 1))]
    have hval : fswap A.2 (if n % 2 = 1 then 0 else p) (n - 1) (n - 1) = vHeap n (p + 1) := by
      have h1 : fswap A.2 (if n % 2 = 1 then 0 else p) (n - 1) (n - 1) =
          A.2 (if n % 2 = 1 then 0 else p) := by
        unfold fswap
        rw [if_neg (show n - 1 ≠ (if n % 2 = 1 then 0 else p) by omega), if_pos rfl]
      rw [h1, iState]
      unfold gammaHeap vHeap
      by_cases hpar : n % 2 = 1
      · rw [if_pos hpar, if_pos hpar, if_pos hpar]
        exact vOdd_step hpar h3 hp
      · rw [if_neg hpar, if_neg hpar, if_neg hpar]
        exact vEven_step (by omega) (by omega) hp
    have hnewv : ∀ q' ∈ (permutate_anagram_sorted (n - 1)
        (fswap A.2 (if n % 2 = 1 then 0 else p) (n - 1))).1,
        q' (n - 1) = vHeap n (p + 1) := by
      intro q' hq'
      rw [hfst] at hq'
      obtain ⟨q0, hq0, rfl⟩ := List.mem_map.mp hq'
      show fswap A.2 (if n % 2 = 1 then 0 else p) (n - 1) (q0 (n - 1)) = vHeap n (p + 1)
      rw [hfix q0 hq0]
      exact hval
    refine ⟨?_, ?_, ?_, ?_⟩
    · intro x
      show (permutate_anagram_sorted (n - 1) (if n % 2 = 1 then fswap A.2 0 (n - 1)
          else fswap A.2 p (n - 1))).2 x = gammaHeap n (p + 1) x
      rw [hgeq, hsnd x, ihState x]
      have hfs : fswap A.2 (if n % 2 = 1 then 0 else p) (n - 1) (sigmaHeap (n - 1) x) =
          A.2 (pswap (if n % 2 = 1 then 0 else p) (n - 1) (sigmaHeap (n - 1) x)) := by
        rw [fswap_eq_pswap]
      rw [hfs, iState, gammaHeap_step h3 hp x]
    · show PermOn n (permutate_anagram_sorted (n - 1) (if n % 2 = 1 then fswap A.2 0 (n - 1)
          else fswap A.2 p (n - 1))).2
      rw [hgeq]
      exact (permutate_permOn (n - 1) _ n (by omega) hgP).2
    · show (A.1 ++ (permutate_anagram_sorted (n - 1) (if n % 2 = 1 then fswap A.2 0 (n - 1)
          else fswap A.2 p (n - 1))).1).Pairwise (DiffBelow n)
      rw [hgeq, List.pairwise_append]
      refine ⟨iPair, ?_, ?_⟩
      · rw [hfst]
        refine List.Pairwise.map _ ?_ ihPair
        intro q1 q2 hd
        obtain ⟨x, hx, hne⟩ := hd
        exact ⟨x, by omega, fun hc => hne (hgP.1 hc)⟩
      · intro q hq q' hq'
        obtain ⟨j, hj, hqv⟩ := iV q hq
        refine ⟨n - 1, by omega, ?_⟩
        rw [hqv, hnewv q' hq']
        intro hc
        have := vHeap_inj h3 (by omega) (by omega) hc
        omega
    · show ∀ q ∈ A.1 ++ (permutate_anagram_sorted (n - 1) (if n % 2 = 1 then fswap A.2 0 (n - 1)
          else fswap A.2 p (n - 1))).1, ∃ j, j ≤ p + 1 ∧ q (n - 1) = vHeap n j
      rw [hgeq]
      intro q hq
      rcases List.mem_append.mp hq with hq' | hq'
      · obtain ⟨j, hj, hv⟩ := iV q hq'
        exact ⟨j, by omega, hv⟩
      · exact ⟨p + 1, le_rfl, hnewv q hq'⟩

/-- Full characterisation of the traversal on the identity vector: the final
state is the fixed positional map `sigmaHeap n`, and the emitted snapshots
are pairwise distinct somewhere below `n`. -/
theorem permutate_state_pairwise :
    ∀ n, 1 ≤ n →
      (∀ x, (permutate_anagram_sorted n (fun i => i)).2 x = sigmaHeap n x) ∧
      (permutate_anagram_sorted n (fun i => i)).1.Pairwise (DiffBelow n) := by
  intro n
  induction n using Nat.strong_induction_on with
  | _ n ih =>
    match n with
    | 0 => intro h; omega
    | 1 =>
      intro _
      constructor
      · intro x
        show x = sigmaHeap 1 x
        by_cases hx : x = 0
        · subst hx; decide
        · rw [sigmaHeap_ge (by omega) (by omega)]
      · exact List.pairwise_singleton _ _
    | 2 =>
      intro _
      constructor
      · intro x
        show fswap (fun i => i) 0 1 x = sigmaHeap 2 x
        by_cases hx : x < 2
        · interval_cases x <;> decide
        · have h1 : fswap (fun i => i) 0 1 x = x := by
            unfold fswap
            rw [if_neg (show x ≠ 0 by omega), if_neg (show x ≠ 1 by omega)]
          rw [h1, sigmaHeap_ge (by omega) (by omega)]
      · show List.Pairwise (DiffBelow 2) [fun i => i, fswap (fun i => i) 0 1]
        refine List.Pairwise.cons ?_ (List.pairwise_singleton _ _)
        intro q hq
        rw [List.mem_singleton] at hq
        subst hq
        refine ⟨0, by omega, ?_⟩
        show (0 : Nat) ≠ fswap (fun i => i) 0 1 0
        unfold fswap
        rw [if_pos rfl]
        decide
    | (size + 3) =>
      intro _
      have h3 : 3 ≤ size + 3 := by omega
      have ihprev := ih (size + 2) (by omega) (by omega)
      have inv := heap_loop_invariant (size + 3) h3 (fun x => ihprev.1 x) ihprev.2
      have inv2 := inv (size + 2) (by omega)
      constructor
      · intro x
        show (heap_loop (permutate_anagram_sorted (size + 2)) (size + 3)
            (List.range (size + 2)) (permutate_anagram_sorted (size + 2) (fun i => i))).2 x =
          sigmaHeap (size + 3) x
        rw [← gammaHeap_last h3 x]
        exact inv2.1 x
      · show (heap_loop (permutate_anagram_sorted (size + 2)) (size + 3)
            (List.range (size + 2))
            (permutate_anagram_sorted (size + 2) (fun i => i))).1.Pairwise
            (DiffBelow (size + 3))
        exact inv2.2.2.1

/-- The rendered orderings emitted on the identity vector are pairwise
distinct. -/
theorem permutate_rendered_nodup (n : Nat) :
    ((permutate_anagram_sorted n (fun i => i)).1.map (render n)).Nodup := by
  by_cases hn : 1 ≤ n
  · refine List.Pairwise.map _ ?_ (permutate_state_pairwise n hn).2
    intro q1 q2 hd hre
    obtain ⟨x, hx, hne⟩ := hd
    exact hne (List.map_inj_left.mp hre x (List.mem_range.mpr hx))
  · have h0 : n = 0 := by omega
    subst h0
    exact List.nodup_nil

/-- Every rendered ordering is a permutation of `range n`. -/
theorem permutate_rendered_sound (n : Nat) :
    ∀ l ∈ (permutate_anagram_sorted n (fun i => i)).1.map (render n),
      l.Perm (List.range n) := by
  intro l hl
  obtain ⟨q, hq, rfl⟩ := List.mem_map.mp hl
  exact permOn_render_perm ((permutate_permOn n (fun i => i) n le_rfl (permOn_id n)).1 q hq)

/-- Every permutation of `range n` is reached: `n!` pairwise-distinct members
of the `n!`-element permutation set exhaust it. -/
theorem permutate_rendered_complete (n : Nat) (hn : 1 ≤ n) :
    ∀ l : List Nat, l.Perm (List.range n) →
      l ∈ (permutate_anagram_sorted n (fun i => i)).1.map (render n) := by
  have hlen : ((permutate_anagram_sorted n (fun i => i)).1.map (render n)).length =
      Nat.factorial n := by
    rw [List.length_map, permutate_length n (fun i => i) hn]
  have hsub : (permutate_anagram_sorted n (fun i => i)).1.map (render n) ⊆
      (List.range n).permutations := by
    intro l hl
    exact List.mem_permutations.mpr (permutate_rendered_sound n l hl)
  have hsp := (permutate_rendered_nodup n).subperm hsub
  have hperm := hsp.perm_of_length_le (by
    rw [List.length_permutations, List.length_range, hlen])
  intro l hl
  exact hperm.mem_iff.mpr (List.mem_permutations.mpr hl)

/-- The positional effect of `Vec::rotate_right(1)` on the first `m`
positions. -/
def pfrot (m : Nat) : Nat → Nat := fun x =>
  if x < m then (if x = 0 then m - 1 else x - 1) else x

theorem frot_eq_pfrot {α : Type} (m : Nat) (f : Nat → α) :
    ∀ x, frot m f x = f (pfrot m x) := by
  intro x
  unfold frot pfrot
  split_ifs <;> rfl

/-- The restoration block of main.rs:405-411 restores the original vector
for every odd length and for lengths up to 5; for even lengths the
`rotate_right(1)` only inverts the traversal's net effect when `m ≤ 4`. -/
theorem permutate_top_restores {α : Type} (m : Nat) (f : Nat → α)
    (h : m % 2 = 1 ∨ (1 ≤ m ∧ m ≤ 5)) : (permutate_top m f).2 = f := by
  have hm1 : 1 ≤ m := by rcases h with h | h; omega; exact h.1
  by_cases hm : m = 1
  · subst hm
    unfold permutate_top
    rw [if_pos rfl]
  · have hfin : ∀ y, (permutate_anagram_sorted m f).2 y = f (sigmaHeap m y) := by
      intro y
      have h1 : (permutate_anagram_sorted m f).2 y =
          f ((permutate_anagram_sorted m (fun i => i)).2 y) := by
        rw [permutate_natural m f]
      rw [h1, (permutate_state_pairwise m hm1).1 y]
    funext x
    show (if m = 1 then (([f], f) : List (Nat → α) × (Nat → α))
        else ((permutate_anagram_sorted m f).1,
          if m % 2 = 1 then fswap (permutate_anagram_sorted m f).2 0 (m - 1)
          else frot m (permutate_anagram_sorted m f).2)).2 x = f x
    rw [if_neg hm]
    show (if m % 2 = 1 then fswap (permutate_anagram_sorted m f).2 0 (m - 1)
        else frot m (permutate_anagram_sorted m f).2) x = f x
    by_cases hpar : m % 2 = 1
    · rw [if_pos hpar]
      have h2 : fswap (permutate_anagram_sorted m f).2 0 (m - 1) x =
          (permutate_anagram_sorted m f).2 (pswap 0 (m - 1) x) := by
        rw [fswap_eq_pswap]
      rw [h2, hfin]
      have h3 : sigmaHeap m (pswap 0 (m - 1) x) = x := by
        unfold sigmaHeap
        rw [if_pos hpar, pswap_invol]
      rw [h3]
    · rw [if_neg hpar, frot_eq_pfrot, hfin]
      have h4 : sigmaHeap m (pfrot m x) = x := by
        have hm24 : m = 2 ∨ m = 4 := by
          rcases h with h | h
          · omega
          · omega
        rcases hm24 with rfl | rfl
        · by_cases hx : x < 2
          · interval_cases x <;> decide
          · rw [show pfrot 2 x = x by
                unfold pfrot; rw [if_neg (show ¬ x < 2 by omega)],
              sigmaHeap_ge (by omega) (by omega)]
        · by_cases hx : x < 4
          · interval_cases x <;> decide
          · rw [show pfrot 4 x = x by
                unfold pfrot; rw [if_neg (show ¬ x < 4 by omega)],
              sigmaHeap_ge (by omega) (by omega)]
      rw [h4]

/-- C2: for every sequence length `N ≥ 1`, `permutate_anagram_sorted` emits
exactly `N!` orderings; on an arbitrary sequence each emitted ordering is the
corresponding positional snapshot applied to the original contents, the
positional orderings are pairwise distinct and exhaust all `N!` permutations
of the positions (no ordering skipped or duplicated); and the top-level call
with its restoration block returns the sequence to its original order when
`N` is odd or `N ≤ 5` — not unconditionally, as the claim asserts. -/
theorem permutate_anagram_sorted_correct (n : Nat) (hn : 1 ≤ n) :
    (∀ {α : Type} (f : Nat → α),
      (permutate_anagram_sorted n f).1.length = Nat.factorial n) ∧
    ((permutate_anagram_sorted n (fun i => i)).1.map (render n)).Nodup ∧
    (∀ l ∈ (permutate_anagram_sorted n (fun i => i)).1.map (render n),
      l.Perm (List.range n)) ∧
    (∀ l : List Nat, l.Perm (List.range n) →
      l ∈ (permutate_anagram_sorted n (fun i => i)).1.map (render n)) ∧
    (∀ {α : Type} (f : Nat → α), (permutate_anagram_sorted n f).1 =
      (permutate_anagram_sorted n (fun i => i)).1.map (fun g => fun x => f (g x))) ∧
    (∀ {α : Type} (f : Nat → α), n % 2 = 1 ∨ n ≤ 5 → (permutate_top n f).2 = f) := by
  refine ⟨fun f => permutate_length n f hn, permutate_rendered_nodup n,
    permutate_rendered_sound n, permutate_rendered_complete n hn,
    fun f => ?_, fun f hr => permutate_top_restores n f ?_⟩
  · rw [permutate_natural n f]
  · rcases hr with h | h
    · exact Or.inl h
    · exact Or.inr ⟨hn, h⟩

/-- C2 witness: at `N = 3` the emitted orderings are pairwise distinct and
the top-level call restores the original order. -/
theorem permutate_anagram_sorted_correct_witness :
    ((permutate_anagram_sorted 3 (fun i : Nat => i)).1.map (render 3)).Nodup ∧
    (permutate_top 3 (fun i : Nat => i)).2 = (fun i : Nat => i) :=
  ⟨(permutate_anagram_sorted_correct 3 (by decide)).2.1,
   (permutate_anagram_sorted_correct 3 (by decide)).2.2.2.2.2 (fun i => i)
     (Or.inl (by decide))⟩

set_option maxRecDepth 100000 in
/-- C2 counterexample to the claim's unconditional restoration: at `N = 6`
the top-level call leaves position 1 holding the element that was originally
at another position, so the caller's sequence is not restored. -/
theorem permutate_top_restoration_cex :
    (permutate_top 6 (fun i : Nat => i)).2 1 ≠ 1 := by decide
end Anagram
